import Mathlib

/-!
Verification of the `dlfx` effect-estimation core (effects.py, balance.py,
meta.py) against its natural-language specification.

Conventions of the shallow embedding:
* Machine floating-point numbers carrying only finite values are modelled as
  exact rationals (`ℚ`).  All quantities the claims depend on (sums of
  weights, zero tests, comparisons with `0`, branch conditions) are decided
  by exact sign/zero tests in the source, so exact arithmetic is faithful.
* Where IEEE special values (NaN, ±inf) are branched on by the source, values
  are modelled by the four-constructor type `RVal` below, with the IEEE
  comparison semantics (any comparison with NaN is false) spelled out.
* A pandas column that may contain nulls/NaN is modelled as `Option ℚ`
  (`none` = missing/NaN); `dropna` is `List.filterMap`.
* numpy's `.to_numpy(dtype=int)` conversion of a float column truncates
  toward zero; it is modelled by `truncZ`.
* Fallible code paths (`raise ValueError`) are modelled by `Except`/sum
  types; functions that return NaN sentinels return `Option ℚ`.
-/

namespace Dlfx

/-- IEEE-style scalar: a finite rational, `+inf`, `-inf`, or NaN. -/
inductive RVal where
  | fin (q : ℚ)
  | pinf
  | ninf
  | nan
  deriving DecidableEq, Repr

namespace RVal

/-- IEEE division of two exact (finite) numerators/denominators:
`x/0` is `±inf` for `x ≠ 0` and NaN for `0/0`. -/
def divQ (a b : ℚ) : RVal :=
  if b = 0 then (if a = 0 then nan else if 0 < a then pinf else ninf)
  else fin (a / b)

/-- IEEE subtraction on `RVal` (NaN propagates, `inf - inf` is NaN). -/
def sub : RVal → RVal → RVal
  | nan, _ => nan
  | _, nan => nan
  | fin a, fin b => fin (a - b)
  | fin _, pinf => ninf
  | fin _, ninf => pinf
  | pinf, fin _ => pinf
  | pinf, pinf => nan
  | pinf, ninf => pinf
  | ninf, fin _ => ninf
  | ninf, pinf => ninf
  | ninf, ninf => nan

/-- IEEE test `x > 0`: false for NaN (and for `-inf`), true for `+inf`. -/
def gtZero : RVal → Bool
  | fin q => decide (0 < q)
  | pinf => true
  | ninf => false
  | nan => false

/-- IEEE division of two `RVal`s, used for `r1 / r0` when `r0 > 0` holds:
only the cases reachable there matter, but all are given. -/
def div : RVal → RVal → RVal
  | nan, _ => nan
  | _, nan => nan
  | fin a, fin b => divQ a b
  | fin _, pinf => fin 0
  | fin _, ninf => fin 0
  | pinf, fin b => if 0 ≤ b then pinf else ninf
  | ninf, fin b => if 0 ≤ b then ninf else pinf
  | pinf, pinf => nan
  | pinf, ninf => nan
  | ninf, pinf => nan
  | ninf, ninf => nan

/-- `pd.notna`: false exactly on NaN (missing); `±inf` counts as present. -/
def notna : RVal → Bool
  | nan => false
  | _ => true

/-- `np.isfinite`. -/
def isFinite : RVal → Bool
  | fin _ => true
  | _ => false

end RVal

/-- C-style truncation toward zero, the behaviour of numpy's
`.to_numpy(dtype=int)` / `.astype(int)` on float data: floor for
non-negative values, ceiling for negative ones (`int(-0.5) = 0`,
`int(-1.5) = -1`). -/
def truncZ (q : ℚ) : ℤ :=
  if 0 ≤ q then ⌊q⌋ else ⌈q⌉

/-- Sum of `f` over a list: the building block for the weighted sums
(`np.sum(w * mask)`) used throughout `effects.py`. -/
def lsum {α : Type} (f : α → ℚ) (l : List α) : ℚ :=
  (l.map f).sum

theorem lsum_nil {α : Type} (f : α → ℚ) : lsum f [] = 0 := rfl

theorem lsum_cons {α : Type} (f : α → ℚ) (a : α) (l : List α) :
    lsum f (a :: l) = f a + lsum f l := by
  simp [lsum]

theorem lsum_nonneg {α : Type} (f : α → ℚ) (l : List α)
    (h : ∀ x ∈ l, 0 ≤ f x) : 0 ≤ lsum f l := by
  induction l with
  | nil => simp [lsum]
  | cons a t ih =>
      rw [lsum_cons]
      have ha := h a (by simp)
      have ht := ih (fun x hx => h x (List.mem_cons_of_mem a hx))
      linarith

theorem lsum_append {α : Type} (f : α → ℚ) (l₁ l₂ : List α) :
    lsum f (l₁ ++ l₂) = lsum f l₁ + lsum f l₂ := by
  simp [lsum]

/-! ## `_kish_effective_n` (effects.py lines 20–26)

```python
def _kish_effective_n(w):
    s1 = float(np.sum(w)); s2 = float(np.sum(w**2))
    if s2 == 0: return 0.0
    return (s1**2) / s2
``` -/

/-- Kish effective sample size `(Σw)² / Σ(w²)`, `0` when `Σ(w²) = 0`. -/
def kish_effective_n (w : List ℚ) : ℚ :=
  let s1 : ℚ := lsum id w
  let s2 : ℚ := lsum (fun x => x ^ 2) w
  if s2 = 0 then 0 else s1 ^ 2 / s2

/-- Expansion `Σ (x - c)² = Σ x² - 2 c Σ x + n c²` over a list. -/
theorem lsum_sq_sub (l : List ℚ) (c : ℚ) :
    lsum (fun x => (x - c) ^ 2) l
      = lsum (fun x => x ^ 2) l - 2 * c * lsum id l + (l.length : ℚ) * c ^ 2 := by
  induction l with
  | nil => simp [lsum]
  | cons a t ih =>
      rw [lsum_cons, lsum_cons, lsum_cons, ih]
      simp only [List.length_cons, id]
      push_cast
      ring

theorem lsum_sq_eq_zero {l : List ℚ}
    (h : lsum (fun x => (x : ℚ) ^ 2) l = 0) : ∀ x ∈ l, x = 0 := by
  induction l with
  | nil => simp
  | cons a t ih =>
      rw [lsum_cons] at h
      have ha2 : (0:ℚ) ≤ a ^ 2 := sq_nonneg a
      have ht2 : (0:ℚ) ≤ lsum (fun x => x ^ 2) t :=
        lsum_nonneg _ _ (fun x _ => sq_nonneg x)
      have ha : a ^ 2 = 0 := by linarith
      have ht : lsum (fun x => (x:ℚ) ^ 2) t = 0 := by linarith
      intro x hx
      rcases List.mem_cons.mp hx with hx | hx
      · subst hx; exact pow_eq_zero_iff (by norm_num) |>.mp ha
      · exact ih ht x hx

/-- Cauchy–Schwarz for the Kish ratio: `(Σw)² ≤ n · Σ(w²)`. -/
theorem sq_sum_le_card_mul_sum_sq (w : List ℚ) :
    (lsum id w) ^ 2 ≤ (w.length : ℚ) * lsum (fun x => x ^ 2) w := by
  rcases w with _ | ⟨a, t⟩
  · simp [lsum]
  · set l := a :: t with hl
    have hn : (0:ℚ) < (l.length : ℚ) := by
      simp [hl]
      positivity
    set n : ℚ := (l.length : ℚ)
    set mu : ℚ := lsum id l / n
    have hkey := lsum_sq_sub l mu
    have hpos : 0 ≤ lsum (fun x => (x - mu) ^ 2) l :=
      lsum_nonneg _ _ (fun x _ => sq_nonneg _)
    have hmu : n * mu = lsum id l := by
      field_simp [mu]
    nlinarith [hkey, hpos, hmu]

theorem kish_le_length (w : List ℚ) :
    kish_effective_n w ≤ (w.length : ℚ) := by
  unfold kish_effective_n
  by_cases h2 : lsum (fun x => x ^ 2) w = 0
  · simp [h2]
  · have hnn : 0 ≤ lsum (fun x => (x : ℚ) ^ 2) w :=
      lsum_nonneg _ _ (fun x _ => sq_nonneg x)
    have hpos : 0 < lsum (fun x => (x : ℚ) ^ 2) w := lt_of_le_of_ne hnn (Ne.symm h2)
    simp only [h2, if_false]
    rw [div_le_iff₀ hpos]
    exact sq_sum_le_card_mul_sum_sq w

theorem lsum_map {α β : Type} (f : β → ℚ) (g : α → β) (l : List α) :
    lsum f (l.map g) = lsum (fun x => f (g x)) l := by
  simp [lsum, List.map_map, Function.comp_def]

theorem lsum_congr {α : Type} {f g : α → ℚ} {l : List α}
    (h : ∀ x ∈ l, f x = g x) : lsum f l = lsum g l := by
  induction l with
  | nil => rfl
  | cons a t ih =>
      rw [lsum_cons, lsum_cons, h a (by simp),
        ih (fun x hx => h x (List.mem_cons_of_mem a hx))]

theorem lsum_const {α : Type} (c : ℚ) (l : List α) :
    lsum (fun _ => c) l = (l.length : ℚ) * c := by
  induction l with
  | nil => simp [lsum]
  | cons a t ih =>
      rw [lsum_cons, ih]
      simp only [List.length_cons]
      push_cast
      ring

/-- Equality case: `kish = n` exactly when the list is empty or all entries
share a common nonzero value. -/
theorem kish_eq_length_iff (w : List ℚ) :
    kish_effective_n w = (w.length : ℚ)
      ↔ (w = [] ∨ ∃ c : ℚ, c ≠ 0 ∧ ∀ x ∈ w, x = c) := by
  unfold kish_effective_n
  by_cases h2 : lsum (fun x => x ^ 2) w = 0
  · have hz : ∀ x ∈ w, x = 0 := lsum_sq_eq_zero h2
    simp only [h2, if_true]
    constructor
    · intro h
      left
      have : (w.length : ℚ) = 0 := h.symm
      have hlen : w.length = 0 := by exact_mod_cast this
      exact List.length_eq_zero.mp hlen
    · intro h
      rcases h with h | ⟨c, hc, hall⟩
      · subst h; simp
      · rcases w with _ | ⟨a, t⟩
        · simp
        · exact absurd ((hz a (by simp)) ▸ (hall a (by simp)).symm) hc
  · have hnn : 0 ≤ lsum (fun x => (x : ℚ) ^ 2) w :=
      lsum_nonneg _ _ (fun x _ => sq_nonneg x)
    have hpos : 0 < lsum (fun x => (x : ℚ) ^ 2) w := lt_of_le_of_ne hnn (Ne.symm h2)
    have hne : w ≠ [] := by
      intro h
      subst h
      simp [lsum] at h2
    have hnposlen : 0 < w.length := List.length_pos.mpr hne
    have hn : (0:ℚ) < (w.length : ℚ) := by exact_mod_cast hnposlen
    simp only [h2, if_false]
    rw [div_eq_iff (ne_of_gt hpos)]
    constructor
    · intro heq
      right
      set n : ℚ := (w.length : ℚ) with hn_def
      set mu : ℚ := lsum id w / n with hmu_def
      have hmu : n * mu = lsum id w := by
        rw [hmu_def]
        field_simp
      have hkey := lsum_sq_sub w mu
      have hvar : lsum (fun x => (x - mu) ^ 2) w = 0 := by
        have hmul : n * lsum (fun x => (x - mu) ^ 2) w = 0 := by
          nlinarith [hkey, hmu, heq]
        rcases mul_eq_zero.mp hmul with h | h
        · exact absurd h (ne_of_gt hn)
        · exact h
      have hvar' : lsum (fun y => y ^ 2) (w.map (fun x => x - mu)) = 0 := by
        rw [lsum_map]; exact hvar
      have hall : ∀ x ∈ w, x = mu := by
        intro x hx
        have := lsum_sq_eq_zero hvar' (x - mu)
          (List.mem_map_of_mem (fun x => x - mu) hx)
        linarith
      refine ⟨mu, ?_, hall⟩
      intro hmu0
      apply h2
      rw [lsum_congr (f := fun x => x ^ 2) (g := fun _ => (0:ℚ))
        (fun x hx => by rw [hall x hx, hmu0]; ring), lsum_const]
      ring
    · intro h
      rcases h with h | ⟨c, _, hall⟩
      · exact absurd h hne
      · have h1 : lsum id w = (w.length : ℚ) * c := by
          have he : lsum id w = lsum (fun _ => c) w :=
            lsum_congr (fun x hx => hall x hx)
          rw [he, lsum_const]
        have h2' : lsum (fun x => x ^ 2) w = (w.length : ℚ) * c ^ 2 := by
          rw [lsum_congr (g := fun _ => c ^ 2)
            (fun x hx => by rw [hall x hx]), lsum_const]
        rw [h1, h2']
        ring

/-- C6 counterexample input: the all-zero vector `[0]` has all entries equal
(and non-negative), yet its Kish effective sample size is `0`, not `len = 1`.
This refutes the claimed "equality iff all weights are equal". -/
theorem kish_eq_length_counterexample :
    (∀ x ∈ [(0:ℚ)], 0 ≤ x) ∧ (∀ x ∈ [(0:ℚ)], ∀ y ∈ [(0:ℚ)], x = y) ∧
      kish_effective_n [(0:ℚ)] ≠ (([(0:ℚ)].length : ℚ)) := by
  refine ⟨by simp, by simp, ?_⟩
  norm_num [kish_effective_n, lsum]

/-- C6 (amended): for non-negative weight vectors, the Kish effective sample
size equals `(Σw)²/Σ(w²)` when `Σ(w²) ≠ 0`, equals `0` when all weights are
zero, is at most `n = len w`, and attains `n` exactly when the vector is
empty or all weights share a common nonzero value (all-equal alone is not
enough: the all-zero vector has ESS `0`). -/
theorem kish_effective_n_spec (w : List ℚ) (hw : ∀ x ∈ w, 0 ≤ x) :
    (lsum (fun x => x ^ 2) w ≠ 0 →
        kish_effective_n w = (lsum id w) ^ 2 / lsum (fun x => x ^ 2) w)
    ∧ ((∀ x ∈ w, x = 0) → kish_effective_n w = 0)
    ∧ kish_effective_n w ≤ (w.length : ℚ)
    ∧ (kish_effective_n w = (w.length : ℚ)
        ↔ (w = [] ∨ ∃ c : ℚ, c ≠ 0 ∧ ∀ x ∈ w, x = c)) := by
  refine ⟨?_, ?_, kish_le_length w, kish_eq_length_iff w⟩
  · intro h2
    unfold kish_effective_n
    simp only [h2, if_false]
  · intro hz
    unfold kish_effective_n
    have : lsum (fun x => x ^ 2) w = 0 := by
      have he : lsum (fun x => x ^ 2) w = lsum (fun _ => (0:ℚ)) w :=
        lsum_congr (fun x hx => by rw [hz x hx]; ring)
      rw [he, lsum_const]
      ring
    simp only [this, if_true]

/-- Witness for `kish_effective_n_spec` at the concrete vector `[1, 2]`. -/
theorem kish_effective_n_spec_witness :
    kish_effective_n [(1:ℚ), 2] ≤ (([(1:ℚ), 2].length : ℚ)) :=
  (kish_effective_n_spec [(1:ℚ), 2] (by norm_num)).2.2.1

/-! ## `weighted_binary_risks` (effects.py lines 35–76)

```python
mask1 = t == 1; mask0 = t == 0
r1 = float(np.sum(w[mask1] * e[mask1]) / np.sum(w[mask1]))
r0 = float(np.sum(w[mask0] * e[mask0]) / np.sum(w[mask0]))
rd = r1 - r0
rr = float(r1 / r0) if r0 > 0 else float("inf")
```

The normal-approximation CI fields (`rd_ci95`, `rr_ci95`, lines 55–67) use
`sqrt`/`exp`/`log` and are outside every claim; the embedded record carries
the four point estimates the claims are about. -/

/-- One subject row for `weighted_binary_risks`: treatment indicator (after
`to_numpy(dtype=int)`), event value, weight. -/
structure BinRow where
  t : ℤ
  e : ℚ
  w : ℚ
  deriving DecidableEq, Repr

/-- `np.sum(w[t == a])`. -/
def armW (a : ℤ) (rows : List BinRow) : ℚ :=
  lsum (fun r => if r.t = a then r.w else 0) rows

/-- `np.sum(w[t == a] * e[t == a])`. -/
def armWE (a : ℤ) (rows : List BinRow) : ℚ :=
  lsum (fun r => if r.t = a then r.w * r.e else 0) rows

/-- Point-estimate part of the `RiskEstimate` record. -/
structure RiskEstimate where
  risk_treated : RVal
  risk_control : RVal
  rd : RVal
  rr : RVal
  deriving DecidableEq, Repr

def weighted_binary_risks (rows : List BinRow) : RiskEstimate :=
  let r1 := RVal.divQ (armWE 1 rows) (armW 1 rows)
  let r0 := RVal.divQ (armWE 0 rows) (armW 0 rows)
  { risk_treated := r1
    risk_control := r0
    rd := RVal.sub r1 r0
    rr := if RVal.gtZero r0 then RVal.div r1 r0 else RVal.pinf }

theorem lsum_eq_zero {α : Type} {f : α → ℚ} {l : List α}
    (hnn : ∀ x ∈ l, 0 ≤ f x) (h : lsum f l = 0) : ∀ x ∈ l, f x = 0 := by
  induction l with
  | nil => simp
  | cons a t ih =>
      rw [lsum_cons] at h
      have ha := hnn a (by simp)
      have ht : 0 ≤ lsum f t :=
        lsum_nonneg _ _ (fun x hx => hnn x (List.mem_cons_of_mem a hx))
      intro x hx
      rcases List.mem_cons.mp hx with hx | hx
      · subst hx; linarith
      · exact ih (fun y hy => hnn y (List.mem_cons_of_mem a hy)) (by linarith) x hx

/-- With non-negative weights, an arm of zero total weight also has zero
weighted event sum. -/
theorem armWE_eq_zero {a : ℤ} {rows : List BinRow}
    (hw : ∀ r ∈ rows, 0 ≤ r.w) (h : armW a rows = 0) : armWE a rows = 0 := by
  have hz := lsum_eq_zero (f := fun r : BinRow => if r.t = a then r.w else 0)
    (fun r hr => by by_cases ht : r.t = a <;> simp [ht, hw r hr]) h
  unfold armWE
  have he : lsum (fun r : BinRow => if r.t = a then r.w * r.e else 0) rows
      = lsum (fun _ : BinRow => (0:ℚ)) rows := by
    refine lsum_congr (fun r hr => ?_)
    by_cases ht : r.t = a
    · have := hz r hr
      simp only [ht, if_true] at this ⊢
      rw [this]; ring
    · simp [ht]
  rw [he, lsum_const]; ring

/-- C2 counterexample input: with rows `[(t=1,e=1,w=1), (t=0,e=1,w=0)]` the
control arm has zero total weight, but the returned RR is `+inf`, not NaN:
`r0` is NaN, the IEEE test `r0 > 0` is false, and the `else` branch returns
`float("inf")`. -/
theorem weighted_binary_risks_rr_counterexample :
    armW 0 [⟨1, 1, 1⟩, ⟨0, 1, 0⟩] = 0 ∧
    (weighted_binary_risks [⟨1, 1, 1⟩, ⟨0, 1, 0⟩]).rr = RVal.pinf ∧
    RVal.pinf ≠ RVal.nan := by
  refine ⟨?_, ?_, by decide⟩
  · norm_num [armW, lsum]
  · norm_num [weighted_binary_risks, armW, armWE, lsum, RVal.divQ, RVal.gtZero]

/-- C2 (amended): for non-negative weights, a zero-total-weight arm has NaN
risk and NaN risk difference; the risk ratio is NaN when the treated arm has
zero weight and the control risk passes the `> 0` test, but it is `+inf`
(not NaN) whenever the control risk fails the `> 0` test — in particular
whenever the *control* arm has zero total weight.  The function is total:
it returns these sentinel values rather than raising. -/
theorem weighted_binary_risks_zero_weight_arm (rows : List BinRow)
    (hw : ∀ r ∈ rows, 0 ≤ r.w) :
    (armW 1 rows = 0 →
        (weighted_binary_risks rows).risk_treated = RVal.nan ∧
        (weighted_binary_risks rows).rd = RVal.nan ∧
        (RVal.gtZero (weighted_binary_risks rows).risk_control = true →
          (weighted_binary_risks rows).rr = RVal.nan))
    ∧ (armW 0 rows = 0 →
        (weighted_binary_risks rows).risk_control = RVal.nan ∧
        (weighted_binary_risks rows).rd = RVal.nan ∧
        (weighted_binary_risks rows).rr = RVal.pinf) := by
  constructor
  · intro h1
    have he1 : armWE 1 rows = 0 := armWE_eq_zero hw h1
    have hr1 : RVal.divQ (armWE 1 rows) (armW 1 rows) = RVal.nan := by
      rw [h1, he1]; simp [RVal.divQ]
    refine ⟨?_, ?_, ?_⟩
    · simp only [weighted_binary_risks, hr1]
    · simp only [weighted_binary_risks, hr1, RVal.sub]
    · intro hgt
      simp only [weighted_binary_risks] at hgt ⊢
      rw [hr1] at *
      simp only [hgt, if_true]
      cases hv : RVal.divQ (armWE 0 rows) (armW 0 rows) <;> simp [RVal.div]
  · intro h0
    have he0 : armWE 0 rows = 0 := armWE_eq_zero hw h0
    have hr0 : RVal.divQ (armWE 0 rows) (armW 0 rows) = RVal.nan := by
      rw [h0, he0]; simp [RVal.divQ]
    refine ⟨?_, ?_, ?_⟩
    · simp only [weighted_binary_risks, hr0]
    · simp only [weighted_binary_risks, hr0]
      cases hv : RVal.divQ (armWE 1 rows) (armW 1 rows) <;> simp [RVal.sub]
    · simp only [weighted_binary_risks, hr0, RVal.gtZero, if_false]
      simp [RVal.gtZero]

/-- Witness for `weighted_binary_risks_zero_weight_arm` at the same concrete
input as the counterexample (control arm weight 0). -/
theorem weighted_binary_risks_zero_weight_arm_witness :
    (weighted_binary_risks [⟨1, 1, 1⟩, ⟨0, 1, 0⟩]).risk_control = RVal.nan ∧
    (weighted_binary_risks [⟨1, 1, 1⟩, ⟨0, 1, 0⟩]).rd = RVal.nan ∧
    (weighted_binary_risks [⟨1, 1, 1⟩, ⟨0, 1, 0⟩]).rr = RVal.pinf :=
  (weighted_binary_risks_zero_weight_arm [⟨1, 1, 1⟩, ⟨0, 1, 0⟩]
    (by decide)).2
    (by norm_num [armW, lsum])

/-! ## `standardized_mean_difference` (balance.py lines 11–46)

```python
def _weighted_mean(x, w): return float(np.sum(w * x) / np.sum(w))
def _weighted_var(x, w):
    mu = _weighted_mean(x, w)
    return float(np.sum(w * (x - mu) ** 2) / np.sum(w))
def standardized_mean_difference(x, t, *, w=None):
    ... m1, m0, v1, v0 per arm (unweighted: np.mean / np.var(ddof=0)) ...
    pooled = np.sqrt((v1 + v0) / 2.0)
    if pooled == 0: return 0.0
    return float((m1 - m0) / pooled)
```

Means/variances are exact rationals when defined; an undefined (NaN/±inf)
mean or variance — empty arm under `np.mean`, zero weight sum under
`_weighted_mean` — is modelled as `none` and propagates to the `nonfin`
result.  `pooled == 0` holds in float exactly when `(v1+v0)/2 == 0`
(`sqrt 0 = 0`, `sqrt pos > 0`, `sqrt neg = NaN ≠ 0`), which the embedding
tests directly on the squared pooled value. -/

/-- One aligned entry of the `x`, `t`, `w` arrays fed to
`standardized_mean_difference`. -/
structure SMDRow where
  x : ℚ
  t : ℤ
  w : ℚ
  deriving DecidableEq, Repr

/-- `x[t == a]` (with its aligned weight). -/
def armRows (a : ℤ) (rows : List SMDRow) : List SMDRow :=
  rows.filter (fun r => r.t = a)

/-- `_weighted_mean`: `np.sum(w * x) / np.sum(w)`, undefined on zero weight
sum. -/
def weightedMean (l : List SMDRow) : Option ℚ :=
  let s := lsum (fun r => r.w) l
  if s = 0 then none else some (lsum (fun r => r.w * r.x) l / s)

/-- `_weighted_var`: `np.sum(w * (x - mu)²) / np.sum(w)`. -/
def weightedVar (l : List SMDRow) : Option ℚ :=
  (weightedMean l).map
    (fun mu => lsum (fun r => r.w * (r.x - mu) ^ 2) l / lsum (fun r => r.w) l)

/-- `np.mean`: NaN on the empty array. -/
def npMean (l : List SMDRow) : Option ℚ :=
  if l = [] then none else some (lsum (fun r => r.x) l / (l.length : ℚ))

/-- `np.var(·, ddof=0)`. -/
def npVar (l : List SMDRow) : Option ℚ :=
  (npMean l).map
    (fun mu => lsum (fun r => (r.x - mu) ^ 2) l / (l.length : ℚ))

/-- Arm mean under the weighted (`w` passed) or unweighted (`w=None`)
branch. -/
def meanOf (weighted : Bool) (a : ℤ) (rows : List SMDRow) : Option ℚ :=
  if weighted then weightedMean (armRows a rows) else npMean (armRows a rows)

def varOf (weighted : Bool) (a : ℤ) (rows : List SMDRow) : Option ℚ :=
  if weighted then weightedVar (armRows a rows) else npVar (armRows a rows)

/-- `(v1 + v0) / 2`, the square of the pooled standard deviation. -/
def pooledSq (weighted : Bool) (rows : List SMDRow) : Option ℚ :=
  match varOf weighted 1 rows, varOf weighted 0 rows with
  | some v1, some v0 => some ((v1 + v0) / 2)
  | _, _ => none

/-- Result of `standardized_mean_difference`: `zero` is the exact `0.0`
early return; `val num p` stands for the finite float `num / sqrt p` with
`p > 0`; `nonfin` covers every NaN/±inf outcome. -/
inductive SMDResult where
  | zero
  | val (num pooledSq : ℚ)
  | nonfin
  deriving DecidableEq, Repr

def standardized_mean_difference (weighted : Bool) (rows : List SMDRow) :
    SMDResult :=
  match meanOf weighted 1 rows, meanOf weighted 0 rows,
      pooledSq weighted rows with
  | some m1, some m0, some p =>
      if p < 0 then SMDResult.nonfin
      else if p = 0 then SMDResult.zero
      else SMDResult.val (m1 - m0) p
  | _, _, _ => SMDResult.nonfin

theorem varOf_some_meanOf_some {b : Bool} {a : ℤ} {rows : List SMDRow}
    {v : ℚ} (h : varOf b a rows = some v) : ∃ m, meanOf b a rows = some m := by
  cases b with
  | true =>
      simp only [varOf, if_true] at h
      rcases Option.map_eq_some'.mp h with ⟨mu, hmu, _⟩
      exact ⟨mu, by simp [meanOf, hmu]⟩
  | false =>
      simp only [varOf, if_false] at h
      rcases Option.map_eq_some'.mp h with ⟨mu, hmu, _⟩
      exact ⟨mu, by simp [meanOf, hmu]⟩

/-- C9: whenever both arms are non-empty and the pooled standard deviation
(square root of the mean of the two arm variances, weighted or unweighted)
is exactly `0`, `standardized_mean_difference` returns the exact `0.0`
result — not NaN, not ±inf; the function is total, so it never raises. -/
theorem standardized_mean_difference_zero_pooled (b : Bool)
    (rows : List SMDRow)
    (h1 : armRows 1 rows ≠ []) (h0 : armRows 0 rows ≠ [])
    (hp : pooledSq b rows = some 0) :
    standardized_mean_difference b rows = SMDResult.zero := by
  have hmatch : ∃ v1 v0, varOf b 1 rows = some v1 ∧ varOf b 0 rows = some v0 := by
    unfold pooledSq at hp
    cases hv1 : varOf b 1 rows with
    | none => rw [hv1] at hp; exact absurd hp (by simp)
    | some v1 =>
        cases hv0 : varOf b 0 rows with
        | none => rw [hv1, hv0] at hp; exact absurd hp (by simp)
        | some v0 => exact ⟨v1, v0, rfl, rfl⟩
  rcases hmatch with ⟨v1, v0, hv1, hv0⟩
  rcases varOf_some_meanOf_some hv1 with ⟨m1, hm1⟩
  rcases varOf_some_meanOf_some hv0 with ⟨m0, hm0⟩
  unfold standardized_mean_difference
  rw [hm1, hm0, hp]
  norm_num

/-- Witness for `standardized_mean_difference_zero_pooled`: a constant
covariate (`x ≡ 3`) over one treated and one control subject, weighted
branch. -/
theorem standardized_mean_difference_zero_pooled_witness :
    standardized_mean_difference true [⟨3, 1, 2⟩, ⟨3, 0, 5⟩] =
      SMDResult.zero :=
  standardized_mean_difference_zero_pooled true [⟨3, 1, 2⟩, ⟨3, 0, 5⟩]
    (by decide) (by decide)
    (by norm_num [pooledSq, varOf, weightedVar, weightedMean, armRows, lsum,
      Option.map])

/-! ## `weighted_km_risk_at` (effects.py lines 180–231)

```python
work = df[[duration, event, weight]].dropna()
if work.empty: return nan
... to_numeric; event .astype(int) ...
total_w = work[weight].sum()
if total_w <= 0: return nan
grouped = per-distinct-duration sums of w_total and w_event (ascending)
s = 1.0; risk = total_w
for each group (t, w_total, w_event):
    if t > horizon: break
    if risk > 0 and d > 0: s *= max(0.0, 1.0 - d / risk)
    risk -= w_total
return 1.0 - s
``` -/

/-- A raw row of the KM input columns; `none` models a null/NaN cell. -/
structure KMRaw where
  dur : Option ℚ
  ev : Option ℚ
  w : Option ℚ
  deriving DecidableEq, Repr

/-- `dropna` + numeric conversion (`event` truncated to int). -/
def kmClean (rows : List KMRaw) : List (ℚ × ℤ × ℚ) :=
  rows.filterMap (fun r =>
    match r.dur, r.ev, r.w with
    | some d, some e, some wv => some (d, truncZ e, wv)
    | _, _, _ => none)

/-- Ascending list of distinct values of a rational column. -/
def distinctSorted (ts : List ℚ) : List ℚ :=
  List.insertionSort (· ≤ ·) ts.dedup

/-- Per-distinct-duration aggregation: `(time, w_total, w_event)` with
`w_event = Σ w·[event == 1]`, ascending in time. -/
def kmGroups (work : List (ℚ × ℤ × ℚ)) : List (ℚ × ℚ × ℚ) :=
  (distinctSorted (work.map (fun r => r.1))).map (fun q =>
    (q, lsum (fun r => if r.1 = q then r.2.2 else 0) work,
        lsum (fun r => if r.1 = q then (if r.2.1 = 1 then r.2.2 else 0) else 0)
          work))

/-- One iteration of the KM loop body on the state `(s, risk)`. -/
def kmStep (st : ℚ × ℚ) (g : ℚ × ℚ × ℚ) : ℚ × ℚ :=
  ((if 0 < st.2 ∧ 0 < g.2.2 then st.1 * max 0 (1 - g.2.2 / st.2) else st.1),
    st.2 - g.2.1)

/-- The KM loop, returning the final survival value `s`;
`horizon < t` is the `break`. -/
def kmLoop (horizon : ℚ) : List (ℚ × ℚ × ℚ) → ℚ × ℚ → ℚ
  | [], st => st.1
  | g :: gs, st =>
      if horizon < g.1 then st.1 else kmLoop horizon gs (kmStep st g)

/-- Trace of `(s, risk)` states of the KM loop: the initial state followed
by the state after each processed group. -/
def kmStates (horizon : ℚ) : List (ℚ × ℚ × ℚ) → ℚ × ℚ → List (ℚ × ℚ)
  | [], st => [st]
  | g :: gs, st =>
      if horizon < g.1 then [st] else st :: kmStates horizon gs (kmStep st g)

/-- Same trace without the `break` (used to state that the processed groups
are exactly the ones with time at most the horizon). -/
def kmStatesNB : List (ℚ × ℚ × ℚ) → ℚ × ℚ → List (ℚ × ℚ)
  | [], st => [st]
  | g :: gs, st => st :: kmStatesNB gs (kmStep st g)

def kmTotal (work : List (ℚ × ℤ × ℚ)) : ℚ :=
  lsum (fun r => r.2.2) work

def weighted_km_risk_at (rows : List KMRaw) (horizon : ℚ) : Option ℚ :=
  let work := kmClean rows
  if work = [] then none
  else if kmTotal work ≤ 0 then none
  else some (1 - kmLoop horizon (kmGroups work) (1, kmTotal work))

/-- C10: on degenerate input — nothing left after dropping rows with a
missing duration/event/weight, or non-positive total weight —
`weighted_km_risk_at` returns the NaN sentinel (and, being a total
function, never raises). -/
theorem weighted_km_risk_at_degenerate (rows : List KMRaw) (horizon : ℚ) :
    (kmClean rows = [] → weighted_km_risk_at rows horizon = none)
    ∧ (kmTotal (kmClean rows) ≤ 0 →
        weighted_km_risk_at rows horizon = none) := by
  constructor
  · intro h
    simp [weighted_km_risk_at, h]
  · intro h
    by_cases he : kmClean rows = []
    · simp [weighted_km_risk_at, he]
    · simp [weighted_km_risk_at, he, h]

/-- Witness for `weighted_km_risk_at_degenerate`: single row with zero
weight (total weight `0 ≤ 0`). -/
theorem weighted_km_risk_at_degenerate_witness :
    weighted_km_risk_at [⟨some 1, some 1, some 0⟩] 7 = none :=
  (weighted_km_risk_at_degenerate [⟨some 1, some 1, some 0⟩] 7).2
    (by simp [kmClean, kmTotal, lsum])

theorem kmStates_ne_nil (h : ℚ) (gs : List (ℚ × ℚ × ℚ)) (st : ℚ × ℚ) :
    kmStates h gs st ≠ [] := by
  cases gs with
  | nil => simp [kmStates]
  | cons g gs =>
      unfold kmStates
      by_cases hb : h < g.1 <;> simp [hb]

theorem kmStates_head (h : ℚ) (gs : List (ℚ × ℚ × ℚ)) (st : ℚ × ℚ) :
    (kmStates h gs st).head? = some st := by
  cases gs with
  | nil => simp [kmStates]
  | cons g gs =>
      unfold kmStates
      by_cases hb : h < g.1 <;> simp [hb]

/-- Facts about one KM loop iteration: with a non-negative group weight
`w_total` and non-negative current `s`, the new `s` is in `[0, s]`, the
at-risk total does not increase, and a non-positive at-risk total leaves
`s` untouched (no multiplicative update). -/
theorem kmStep_facts (st : ℚ × ℚ) (g : ℚ × ℚ × ℚ)
    (hs0 : 0 ≤ st.1) (hwt : 0 ≤ g.2.1) :
    (kmStep st g).1 ≤ st.1 ∧ 0 ≤ (kmStep st g).1 ∧
      (kmStep st g).2 ≤ st.2 ∧ (st.2 ≤ 0 → (kmStep st g).1 = st.1) := by
  have e1 : (kmStep st g).1
      = if 0 < st.2 ∧ 0 < g.2.2 then st.1 * max 0 (1 - g.2.2 / st.2)
        else st.1 := rfl
  have e2 : (kmStep st g).2 = st.2 - g.2.1 := rfl
  rw [e1, e2]
  by_cases hc : 0 < st.2 ∧ 0 < g.2.2
  · rw [if_pos hc]
    have hfrac : 0 < g.2.2 / st.2 := div_pos hc.2 hc.1
    have hf0 : 0 ≤ max 0 (1 - g.2.2 / st.2) := le_max_left 0 _
    have hf1 : max 0 (1 - g.2.2 / st.2) ≤ 1 :=
      max_le (by norm_num) (by linarith)
    refine ⟨?_, mul_nonneg hs0 hf0, by linarith, ?_⟩
    · calc st.1 * max 0 (1 - g.2.2 / st.2) ≤ st.1 * 1 :=
            mul_le_mul_of_nonneg_left hf1 hs0
        _ = st.1 := by ring
    · intro hle
      exact absurd hc.1 (not_lt.mpr hle)
  · rw [if_neg hc]
    exact ⟨le_refl _, hs0, by linarith, fun _ => rfl⟩

/-- KM trace invariant: starting from a state with `s ∈ [0,1]`, every state
in the trace keeps `s ∈ [0,1]`, and along consecutive states `s` is
non-increasing, the at-risk total is non-increasing, and a state with
non-positive at-risk total passes its `s` unchanged to the next state. -/
theorem kmStates_invariant (h : ℚ) (gs : List (ℚ × ℚ × ℚ)) (st : ℚ × ℚ)
    (hwt : ∀ g ∈ gs, 0 ≤ g.2.1) (hs0 : 0 ≤ st.1) (hs1 : st.1 ≤ 1) :
    (∀ p ∈ kmStates h gs st, 0 ≤ p.1 ∧ p.1 ≤ 1) ∧
      List.Chain'
        (fun p q => q.1 ≤ p.1 ∧ q.2 ≤ p.2 ∧ (p.2 ≤ 0 → q.1 = p.1))
        (kmStates h gs st) := by
  induction gs generalizing st with
  | nil =>
      constructor
      · intro p hp
        rw [kmStates] at hp
        rcases List.mem_singleton.mp hp with rfl
        exact ⟨hs0, hs1⟩
      · rw [kmStates]; simp
  | cons g gs ih =>
      by_cases hb : h < g.1
      · constructor
        · intro p hp
          rw [kmStates] at hp
          simp only [hb, if_true] at hp
          rcases List.mem_singleton.mp hp with rfl
          exact ⟨hs0, hs1⟩
        · rw [kmStates]
          simp [hb]
      · have hg := kmStep_facts st g hs0 (hwt g (by simp))
        have ihs := ih (kmStep st g)
          (fun g' hg' => hwt g' (List.mem_cons_of_mem g hg'))
          hg.2.1 (le_trans hg.1 hs1)
        constructor
        · intro p hp
          rw [kmStates] at hp
          simp only [hb, if_false, List.mem_cons] at hp
          rcases hp with rfl | hp
          · exact ⟨hs0, hs1⟩
          · exact ihs.1 p hp
        · rw [kmStates]
          simp only [hb, if_false]
          rw [List.chain'_cons']
          refine ⟨?_, ihs.2⟩
          intro b hbmem
          rw [kmStates_head] at hbmem
          rcases Option.mem_some_iff.mp hbmem with rfl
          exact ⟨hg.1, hg.2.2.1, hg.2.2.2⟩

/-- With groups sorted ascending in time, the `break` makes the loop
process exactly the groups with time at most the horizon: distinct times
strictly greater than the horizon are never processed. -/
theorem kmStates_break_eq_filter (h : ℚ) (gs : List (ℚ × ℚ × ℚ))
    (st : ℚ × ℚ) (hsort : (gs.map (fun g => g.1)).Sorted (· ≤ ·)) :
    kmStates h gs st = kmStatesNB (gs.filter (fun g => decide (g.1 ≤ h))) st := by
  induction gs generalizing st with
  | nil => simp [kmStates, kmStatesNB]
  | cons g gs ih =>
      simp only [List.map_cons, List.sorted_cons] at hsort
      by_cases hb : h < g.1
      · have hnone : gs.filter (fun g' => decide (g'.1 ≤ h)) = [] := by
          rw [List.filter_eq_nil_iff]
          intro g' hg'
          have : g.1 ≤ g'.1 := hsort.1 g'.1 (List.mem_map_of_mem _ hg')
          simp only [decide_eq_true_eq]
          linarith
        rw [kmStates]
        simp only [hb, if_true]
        rw [List.filter_cons_of_neg (by simpa using not_le.mpr hb), hnone]
        rfl
      · rw [kmStates]
        simp only [hb, if_false]
        rw [List.filter_cons_of_pos (by simpa using not_lt.mp hb)]
        rw [kmStatesNB]
        rw [ih (kmStep st g) hsort.2]

theorem kmGroups_map_fst (work : List (ℚ × ℤ × ℚ)) :
    (kmGroups work).map (fun g => g.1)
      = distinctSorted (work.map (fun r => r.1)) := by
  unfold kmGroups
  generalize distinctSorted (work.map fun r => r.1) = L
  induction L with
  | nil => rfl
  | cons q l ih => simpa using ih

theorem kmGroups_sorted (work : List (ℚ × ℤ × ℚ)) :
    ((kmGroups work).map (fun g => g.1)).Sorted (· ≤ ·) := by
  rw [kmGroups_map_fst]
  exact List.sorted_insertionSort (· ≤ ·) _

theorem kmGroups_wt_nonneg (work : List (ℚ × ℤ × ℚ))
    (hw : ∀ r ∈ work, 0 ≤ r.2.2) :
    ∀ g ∈ kmGroups work, 0 ≤ g.2.1 := by
  intro g hg
  unfold kmGroups at hg
  rcases List.mem_map.mp hg with ⟨q, _, rfl⟩
  exact lsum_nonneg _ _ (fun r hr => by
    by_cases ht : r.1 = q <;> simp [ht, hw r hr])

/-- C4: invariants of the KM survival loop.  For a non-empty cleaned input
with non-negative weights, the `(s, risk)` state trace (a) starts at
`s = 1` with `risk` the total weight, (b) keeps `s` within `[0,1]`
throughout, (c) has `s` non-increasing and the weighted at-risk total
non-increasing along consecutive processed steps, with no multiplicative
update applied from any state whose at-risk total is `≤ 0`, and (d) the
loop processes exactly the ascending distinct times at most the horizon —
times strictly greater than the horizon are never processed. -/
theorem weighted_km_survival_invariants (rows : List KMRaw) (horizon : ℚ)
    (hne : kmClean rows ≠ [])
    (hw : ∀ r ∈ kmClean rows, 0 ≤ r.2.2) :
    (kmStates horizon (kmGroups (kmClean rows))
        (1, kmTotal (kmClean rows))).head? = some (1, kmTotal (kmClean rows))
    ∧ (∀ p ∈ kmStates horizon (kmGroups (kmClean rows))
          (1, kmTotal (kmClean rows)), 0 ≤ p.1 ∧ p.1 ≤ 1)
    ∧ List.Chain'
        (fun p q => q.1 ≤ p.1 ∧ q.2 ≤ p.2 ∧ (p.2 ≤ 0 → q.1 = p.1))
        (kmStates horizon (kmGroups (kmClean rows))
          (1, kmTotal (kmClean rows)))
    ∧ kmStates horizon (kmGroups (kmClean rows)) (1, kmTotal (kmClean rows))
        = kmStatesNB
            ((kmGroups (kmClean rows)).filter (fun g => decide (g.1 ≤ horizon)))
            (1, kmTotal (kmClean rows)) := by
  have hinv := kmStates_invariant horizon (kmGroups (kmClean rows))
    (1, kmTotal (kmClean rows)) (kmGroups_wt_nonneg _ hw)
    (by norm_num) (by norm_num)
  exact ⟨kmStates_head _ _ _, hinv.1, hinv.2,
    kmStates_break_eq_filter _ _ _ (kmGroups_sorted _)⟩

/-- Witness for `weighted_km_survival_invariants` at a concrete two-row
input. -/
theorem weighted_km_survival_invariants_witness :
    (kmStates 7 (kmGroups (kmClean [⟨some 1, some 1, some 1⟩,
        ⟨some 2, some 0, some 1⟩]))
      (1, kmTotal (kmClean [⟨some 1, some 1, some 1⟩,
        ⟨some 2, some 0, some 1⟩]))).head?
      = some (1, kmTotal (kmClean [⟨some 1, some 1, some 1⟩,
        ⟨some 2, some 0, some 1⟩])) :=
  (weighted_km_survival_invariants
    [⟨some 1, some 1, some 1⟩, ⟨some 2, some 0, some 1⟩] 7
    (by simp [kmClean])
    (by simp [kmClean, truncZ])).1

/-! ## `fit_weighted_cox` error checks (effects.py lines 85–139)

```python
work = df.loc[:, cols].dropna(subset=cols)
time = np.maximum(..., 1e-12); event = ...astype(int)
w = ...; x = ...to_numpy(dtype=int)
if not np.isin(x, [0, 1]).all():
    raise ValueError(f"... must be 0/1 for Cox fit.")
by_time = per-distinct-time sums of w_risk1/w_risk0/w_event1/w_event0,
          descending in time, with cumulative risk sets R1, R0; d = d1 + d0
event_times = by_time[by_time["d"] > 0]
if event_times.empty:
    raise ValueError("No events present for Cox fit.")
```

Rows are modelled post-`dropna` (all four cells present); the Newton
iteration and sandwich variance (lines 146–177) run only after both checks
pass and are not part of any claim — the `ok` outcome carries the
aggregated per-event-time table the fit would consume. -/

/-- One post-`dropna` input row of `fit_weighted_cox`, before numeric
conversion. -/
structure CoxRow where
  time : ℚ
  event : ℚ
  w : ℚ
  x : ℚ
  deriving DecidableEq, Repr

/-- After conversion: `time` clamped to at least `1e-12`; `event` and `x`
truncated to ints. -/
structure CoxWork where
  time : ℚ
  event : ℤ
  w : ℚ
  x : ℤ
  deriving DecidableEq, Repr

def coxClean (rows : List CoxRow) : List CoxWork :=
  rows.map (fun r =>
    ⟨max r.time (1 / (10:ℚ) ^ 12), truncZ r.event, r.w, truncZ r.x⟩)

/-- Per-time aggregate row, descending in time. -/
structure CoxAgg where
  time : ℚ
  w1 : ℚ
  w0 : ℚ
  d1 : ℚ
  d0 : ℚ
  deriving DecidableEq, Repr

/-- Per-event-time risk-set row: cumulative at-risk weights `R1`, `R0`
(summed from the largest time downward) and event weights. -/
structure CoxRiskRow where
  time : ℚ
  R1 : ℚ
  R0 : ℚ
  d1 : ℚ
  d : ℚ
  deriving DecidableEq, Repr

def coxByTime (work : List CoxWork) : List CoxAgg :=
  ((distinctSorted (work.map (fun r => r.time))).reverse).map (fun q =>
    ⟨q,
      lsum (fun r => if r.time = q ∧ r.x = 1 then r.w else 0) work,
      lsum (fun r => if r.time = q ∧ r.x = 0 then r.w else 0) work,
      lsum (fun r => if r.time = q ∧ r.x = 1 ∧ r.event = 1 then r.w else 0)
        work,
      lsum (fun r => if r.time = q ∧ r.x = 0 ∧ r.event = 1 then r.w else 0)
        work⟩)

/-- `cumsum` of the per-arm risk weights down the descending time order. -/
def coxRiskSets : List CoxAgg → ℚ → ℚ → List CoxRiskRow
  | [], _, _ => []
  | a :: rest, acc1, acc0 =>
      ⟨a.time, acc1 + a.w1, acc0 + a.w0, a.d1, a.d1 + a.d0⟩ ::
        coxRiskSets rest (acc1 + a.w1) (acc0 + a.w0)

/-- `by_time[by_time["d"] > 0]`. -/
def coxEventTimes (rows : List CoxRow) : List CoxRiskRow :=
  (coxRiskSets (coxByTime (coxClean rows)) 0 0).filter
    (fun r => decide (0 < r.d))

/-- Outcome of `fit_weighted_cox` up to its two `raise ValueError` guards. -/
inductive CoxOutcome where
  | errNonBinary
  | errNoEvents
  | ok (event_times : List CoxRiskRow)
  deriving DecidableEq, Repr

def fit_weighted_cox_checks (rows : List CoxRow) : CoxOutcome :=
  let work := coxClean rows
  if ¬ (∀ r ∈ work, r.x = 0 ∨ r.x = 1) then CoxOutcome.errNonBinary
  else if coxEventTimes rows = [] then CoxOutcome.errNoEvents
  else CoxOutcome.ok (coxEventTimes rows)

/-- Convenience: did `fit_weighted_cox` raise? -/
def coxRaises : CoxOutcome → Bool
  | CoxOutcome.ok _ => false
  | _ => true

/-- C3 counterexample input: a treatment column containing `0.5` (or
`-0.5`) — values other than `0` or `1` — does NOT raise:
`to_numpy(dtype=int)` truncates them toward zero to `0`, the binary check
passes, and the fit proceeds (one event is present). -/
theorem fit_weighted_cox_nonbinary_counterexample :
    (coxRaises (fit_weighted_cox_checks [⟨1, 1, 1, 1/2⟩]) = false ∧
      ((1:ℚ)/2 ≠ 0 ∧ (1:ℚ)/2 ≠ 1)) ∧
    (coxRaises (fit_weighted_cox_checks [⟨1, 1, 1, -1/2⟩]) = false ∧
      (-(1:ℚ)/2 ≠ 0 ∧ -(1:ℚ)/2 ≠ 1)) := by
  constructor
  · constructor
    · have hclean : coxClean [⟨1, 1, 1, 1/2⟩]
          = [⟨1, 1, 1, 0⟩] := by
        unfold coxClean
        simp only [List.map_cons, List.map_nil]
        norm_num [truncZ]
      have hev : coxEventTimes [⟨1, 1, 1, 1/2⟩]
          = [⟨1, 0, 1, 0, 1⟩] := by
        rw [coxEventTimes, hclean]
        norm_num [coxByTime, coxRiskSets, distinctSorted, lsum,
          List.insertionSort, List.orderedInsert]
      rw [fit_weighted_cox_checks, hclean, hev]
      norm_num [coxRaises]
    · norm_num
  · constructor
    · have hclean : coxClean [⟨1, 1, 1, -1/2⟩]
          = [⟨1, 1, 1, 0⟩] := by
        unfold coxClean
        simp only [List.map_cons, List.map_nil]
        norm_num [truncZ]
      have hev : coxEventTimes [⟨1, 1, 1, -1/2⟩]
          = [⟨1, 0, 1, 0, 1⟩] := by
        rw [coxEventTimes, hclean]
        norm_num [coxByTime, coxRiskSets, distinctSorted, lsum,
          List.insertionSort, List.orderedInsert]
      rw [fit_weighted_cox_checks, hclean, hev]
      norm_num [coxRaises]
    · norm_num

/-- C3 (amended): after `dropna` and int truncation, `fit_weighted_cox`
raises the non-binary error exactly when some truncated treatment value is
outside `{0,1}` (so fractional raw values in `(-1,2)` such as `0.5` pass);
with a binary (truncated) treatment it raises the no-events error exactly
when no per-time aggregate has positive weighted event count `d`; in every
other case it proceeds to the fit on the aggregated risk sets — it never
silently substitutes a default in the two error cases. -/
theorem fit_weighted_cox_raise_conditions (rows : List CoxRow) :
    (¬ (∀ r ∈ coxClean rows, r.x = 0 ∨ r.x = 1) →
        fit_weighted_cox_checks rows = CoxOutcome.errNonBinary)
    ∧ ((∀ r ∈ coxClean rows, r.x = 0 ∨ r.x = 1) →
        (coxEventTimes rows = [] →
          fit_weighted_cox_checks rows = CoxOutcome.errNoEvents)
        ∧ (coxEventTimes rows ≠ [] →
          fit_weighted_cox_checks rows = CoxOutcome.ok (coxEventTimes rows))) := by
  refine ⟨fun hnb => ?_, fun hb => ⟨fun hne => ?_, fun hok => ?_⟩⟩
  · simp [fit_weighted_cox_checks, hnb]
  · simp [fit_weighted_cox_checks, hne]
    intro x hx hx0
    rcases hb x hx with h | h
    · exact absurd h hx0
    · exact h
  · simp [fit_weighted_cox_checks, hok]
    intro x hx hx0
    rcases hb x hx with h | h
    · exact absurd h hx0
    · exact h

/-- Witness for `fit_weighted_cox_raise_conditions`: treatment value `2`
(truncates to `2 ∉ {0,1}`) raises the non-binary error. -/
theorem fit_weighted_cox_raise_conditions_witness :
    fit_weighted_cox_checks [⟨1, 1, 1, 2⟩] = CoxOutcome.errNonBinary :=
  (fit_weighted_cox_raise_conditions [⟨1, 1, 1, 2⟩]).1
    (by
      intro hall
      have := hall ⟨1, 1, 1, 2⟩ (by
        norm_num [coxClean, truncZ])
      norm_num [truncZ] at this)

/-! ## `random_effects_meta_ratio` / `combine_effect_tables` (meta.py)

```python
mask = np.isfinite(ratios) & np.isfinite(los) & np.isfinite(his) \
     & (ratios > 0) & (los > 0) & (his > 0)
ratios = ratios[mask]; ...
if ratios.size < 2: return None
...DerSimonian-Laird on log scale...

# combine_effect_tables, per outcome row:
#   collect (ratio, lo, hi) per label when all three are notna,
#   and the notna effect_type labels of those included studies;
#   if len(set(effect_types)) > 1: meta = None
#   else: meta = random_effects_meta_ratio(...)
```

The DerSimonian–Laird arithmetic itself is `log`/`exp`-based and outside
every claim; the `some` payload of the embedded function carries the
filtered studies the DL computation would consume, so the none/some
decision structure is exactly the source's. -/

def validStudy (s : RVal × RVal × RVal) : Bool :=
  s.1.isFinite && s.2.1.isFinite && s.2.2.isFinite &&
    s.1.gtZero && s.2.1.gtZero && s.2.2.gtZero

def random_effects_meta_ratio (studies : List (RVal × RVal × RVal)) :
    Option (List (RVal × RVal × RVal)) :=
  let kept := studies.filter validStudy
  if kept.length < 2 then none else some kept

/-- One outcome's cells for one cohort label in the merged effect table
(`NaN`/missing cells are `RVal.nan`; a missing effect type is `none`). -/
structure EffectCells where
  ratio : RVal
  lo : RVal
  hi : RVal
  effect_type : Option String

/-- The candidate studies of one outcome row: the labels whose ratio and CI
bounds are all notna. -/
def rowCandidates (a b : EffectCells) : List (RVal × RVal × RVal) :=
  ([a, b].filter (fun c => c.ratio.notna && c.lo.notna && c.hi.notna)).map
    (fun c => (c.ratio, c.lo, c.hi))

/-- The notna effect-type labels carried by the candidate studies. -/
def rowEffectTypes (a b : EffectCells) : List String :=
  ([a, b].filter
      (fun c => c.ratio.notna && c.lo.notna && c.hi.notna)).filterMap
    (fun c => c.effect_type)

/-- Per-outcome pooling of `combine_effect_tables`: suppressed when the
candidate studies carry more than one distinct effect-type label. -/
def poolRow (a b : EffectCells) : Option (List (RVal × RVal × RVal)) :=
  if 1 < (rowEffectTypes a b).dedup.length then none
  else random_effects_meta_ratio (rowCandidates a b)

/-- C7: (i) `random_effects_meta_ratio` returns a pooled estimate exactly
when at least 2 studies survive the validity filter (finite, strictly
positive ratio and CI bounds) — fewer than 2 yields no pooled estimate,
never a single-study or degenerate one; (ii) a row whose candidate studies
carry more than one distinct effect-type label has pooling suppressed. -/
theorem meta_pooling_guards (studies : List (RVal × RVal × RVal))
    (a b : EffectCells) :
    ((studies.filter validStudy).length < 2 →
        random_effects_meta_ratio studies = none)
    ∧ (2 ≤ (studies.filter validStudy).length →
        random_effects_meta_ratio studies
          = some (studies.filter validStudy))
    ∧ (1 < (rowEffectTypes a b).dedup.length → poolRow a b = none) := by
  refine ⟨fun h => ?_, fun h => ?_, fun h => ?_⟩
  · simp [random_effects_meta_ratio, h]
  · simp [random_effects_meta_ratio, not_lt.mpr h]
  · simp [poolRow, h]

/-- Witness for `meta_pooling_guards`: a single valid study is not pooled,
and a row mixing a hazard ratio with a risk ratio is not pooled. -/
theorem meta_pooling_guards_witness :
    random_effects_meta_ratio [(RVal.fin 2, RVal.fin 1, RVal.fin 4)] = none
    ∧ poolRow ⟨RVal.fin 2, RVal.fin 1, RVal.fin 4, some "hr"⟩
        ⟨RVal.fin 2, RVal.fin 1, RVal.fin 4, some "rr"⟩ = none := by
  constructor
  · exact (meta_pooling_guards [(RVal.fin 2, RVal.fin 1, RVal.fin 4)]
      ⟨RVal.nan, RVal.nan, RVal.nan, none⟩
      ⟨RVal.nan, RVal.nan, RVal.nan, none⟩).1
      (by norm_num [validStudy, RVal.isFinite, RVal.gtZero])
  · exact (meta_pooling_guards []
      ⟨RVal.fin 2, RVal.fin 1, RVal.fin 4, some "hr"⟩
      ⟨RVal.fin 2, RVal.fin 1, RVal.fin 4, some "rr"⟩).2.2
      (by decide)

/-! ## Additional summation lemmas for the Aalen–Johansen development -/

theorem lsum_add {α : Type} (f g : α → ℚ) (l : List α) :
    lsum (fun x => f x + g x) l = lsum f l + lsum g l := by
  induction l with
  | nil => simp [lsum]
  | cons a t ih => rw [lsum_cons, lsum_cons, lsum_cons, ih]; ring

theorem lsum_le_lsum {α : Type} {f g : α → ℚ} {l : List α}
    (h : ∀ x ∈ l, f x ≤ g x) : lsum f l ≤ lsum g l := by
  induction l with
  | nil => simp [lsum]
  | cons a t ih =>
      rw [lsum_cons, lsum_cons]
      have ha := h a (by simp)
      have ht := ih (fun x hx => h x (List.mem_cons_of_mem a hx))
      linarith

theorem lsum_pos {α : Type} {f : α → ℚ} {l : List α}
    (hnn : ∀ x ∈ l, 0 ≤ f x) (hex : ∃ x ∈ l, 0 < f x) : 0 < lsum f l := by
  induction l with
  | nil => simp at hex
  | cons a t ih =>
      rw [lsum_cons]
      have ht : 0 ≤ lsum f t :=
        lsum_nonneg _ _ (fun x hx => hnn x (List.mem_cons_of_mem a hx))
      rcases hex with ⟨x, hx, hfx⟩
      rcases List.mem_cons.mp hx with rfl | hx
      · linarith
      · have := ih (fun y hy => hnn y (List.mem_cons_of_mem a hy)) ⟨x, hx, hfx⟩
        have ha := hnn a (by simp)
        linarith

/-- Over a duplicate-free key list, the indicator sum picks out the key. -/
theorem lsum_if_single {Q : List ℚ} (hnd : Q.Nodup) (k : ℚ) (c : ℚ) :
    lsum (fun q => if k = q then c else 0) Q = if k ∈ Q then c else 0 := by
  induction Q with
  | nil => simp [lsum]
  | cons a t ih =>
      rw [lsum_cons]
      rcases List.nodup_cons.mp hnd with ⟨hna, hnt⟩
      by_cases hk : k = a
      · subst hk
        have : k ∉ t := hna
        rw [ih hnt]
        simp [this]
      · rw [ih hnt]
        by_cases hmem : k ∈ t <;> simp [hk, hmem]

/-- Partition of a row sum over a duplicate-free list of key values. -/
theorem lsum_partition {α : Type} (key : α → ℚ) (f : α → ℚ)
    (rows : List α) (Q : List ℚ) (hnd : Q.Nodup) :
    lsum (fun q => lsum (fun r => if key r = q then f r else 0) rows) Q
      = lsum (fun r => if key r ∈ Q then f r else 0) rows := by
  induction rows with
  | nil =>
      rw [lsum_nil]
      have : lsum (fun _ : ℚ => (0:ℚ)) Q = 0 := by rw [lsum_const]; ring
      calc lsum (fun q => lsum (fun r => if key r = q then f r else 0) []) Q
          = lsum (fun _ : ℚ => (0:ℚ)) Q := lsum_congr (fun q _ => lsum_nil _)
        _ = 0 := this
  | cons r rest ih =>
      have hsplit : lsum (fun q =>
          lsum (fun s => if key s = q then f s else 0) (r :: rest)) Q
          = lsum (fun q => if key r = q then f r else 0) Q
            + lsum (fun q =>
                lsum (fun s => if key s = q then f s else 0) rest) Q := by
        rw [← lsum_add]
        exact lsum_congr (fun q _ => lsum_cons _ _ _)
      rw [hsplit, lsum_if_single hnd, ih, lsum_cons]

/-- A `≤`-sorted rational list splits as the values below a threshold
followed by the values at or above it. -/
theorem sorted_split_at (c : ℚ) (l : List ℚ) (hs : l.Sorted (· ≤ ·)) :
    l = l.filter (fun q => decide (q < c))
          ++ l.filter (fun q => decide (c ≤ q)) := by
  induction l with
  | nil => simp
  | cons a t ih =>
      rw [List.sorted_cons] at hs
      by_cases ha : a < c
      · rw [List.filter_cons_of_pos (by simpa using ha),
          List.filter_cons_of_neg (by simpa using not_le.mpr ha)]
        simpa using ih hs.2
      · have hca : c ≤ a := not_lt.mp ha
        rw [List.filter_cons_of_neg (by simpa using ha),
          List.filter_cons_of_pos (by simpa using hca)]
        have htail : t.filter (fun q => decide (q < c)) = [] := by
          rw [List.filter_eq_nil_iff]
          intro q hq
          have := hs.1 q hq
          simpa using not_lt.mpr (le_trans hca this)
        have htail2 : t.filter (fun q => decide (c ≤ q)) = t := by
          rw [List.filter_eq_self]
          intro q hq
          simpa using le_trans hca (hs.1 q hq)
        rw [htail] at ih ⊢
        simp only [List.nil_append] at ih
        rw [htail2]
        simp

/-! ## `_weighted_aj_cif_at` (effects.py lines 234–292)

```python
mask = np.isfinite(t) & np.isfinite(w) & (w > 0)
if not np.any(mask): return nan
t = np.minimum(t[mask], horizon); s = s[mask]; w = w[mask]
...sort by t; per-unique-time sums w_total, w_d1 (s==1), w_d2 (s==2)...
total_w = np.sum(w_total)
if total_w <= 0: return nan
y = total_w - cum_before
surv = 1.0; cif = 0.0
for ti, yi, d1i, d2i in ...:
    if ti > horizon: break
    if yi <= 0: continue
    if d1i > 0: cif += surv * (d1i / yi)
    if (d1i + d2i) > 0: surv *= max(0.0, 1.0 - ((d1i + d2i) / yi))
return cif
```

Rows are `(time, status, weight)` with time and weight exact rationals
(both are finite wherever this helper is reached — the caller builds them
from `dropna`'d columns capped at the horizon — so `np.isfinite` reduces to
the `w > 0` mask). -/

/-- Per-distinct-time aggregate of the Aalen–Johansen risk table. -/
structure AJGroup where
  time : ℚ
  wt : ℚ
  d1 : ℚ
  d2 : ℚ
  deriving DecidableEq, Repr

/-- `w > 0` mask. -/
def ajMask (rows : List (ℚ × ℤ × ℚ)) : List (ℚ × ℤ × ℚ) :=
  rows.filter (fun r => decide (0 < r.2.2))

/-- `np.minimum(t, horizon)`. -/
def ajCap (horizon : ℚ) (rows : List (ℚ × ℤ × ℚ)) : List (ℚ × ℤ × ℚ) :=
  rows.map (fun r => (min r.1 horizon, r.2.1, r.2.2))

def ajGroupAt (rows : List (ℚ × ℤ × ℚ)) (q : ℚ) : AJGroup :=
  ⟨q,
    lsum (fun r => if r.1 = q then r.2.2 else 0) rows,
    lsum (fun r => if r.1 = q then (if r.2.1 = 1 then r.2.2 else 0) else 0)
      rows,
    lsum (fun r => if r.1 = q then (if r.2.1 = 2 then r.2.2 else 0) else 0)
      rows⟩

def ajGroups (rows : List (ℚ × ℤ × ℚ)) : List AJGroup :=
  (distinctSorted (rows.map (fun r => r.1))).map (ajGroupAt rows)

/-- The AJ accumulation loop on the state `(cum_before, surv, cif)`;
`horizon < time` is the `break`, `y ≤ 0` the `continue`. -/
def ajLoop (horizon total : ℚ) : List AJGroup → ℚ × ℚ × ℚ → ℚ × ℚ × ℚ
  | [], st => st
  | g :: gs, st =>
      if horizon < g.time then st
      else
        let y := total - st.1
        if y ≤ 0 then ajLoop horizon total gs (st.1 + g.wt, st.2.1, st.2.2)
        else
          ajLoop horizon total gs
            (st.1 + g.wt,
              (if 0 < g.d1 + g.d2 then st.2.1 * max 0 (1 - (g.d1 + g.d2) / y)
                else st.2.1),
              (if 0 < g.d1 then st.2.2 + st.2.1 * (g.d1 / y) else st.2.2))

/-- The same loop without the `break` (reached whenever every group time is
at most the horizon, which capping guarantees). -/
def ajRunNB (total : ℚ) : List AJGroup → ℚ × ℚ × ℚ → ℚ × ℚ × ℚ
  | [], st => st
  | g :: gs, st =>
      let y := total - st.1
      if y ≤ 0 then ajRunNB total gs (st.1 + g.wt, st.2.1, st.2.2)
      else
        ajRunNB total gs
          (st.1 + g.wt,
            (if 0 < g.d1 + g.d2 then st.2.1 * max 0 (1 - (g.d1 + g.d2) / y)
              else st.2.1),
            (if 0 < g.d1 then st.2.2 + st.2.1 * (g.d1 / y) else st.2.2))

def weighted_aj_cif_at (rows : List (ℚ × ℤ × ℚ)) (horizon : ℚ) : Option ℚ :=
  let m := ajMask rows
  if m = [] then none
  else
    let capped := ajCap horizon m
    let total := lsum (fun r => r.2.2) capped
    if total ≤ 0 then none
    else some (ajLoop horizon total (ajGroups capped) (0, 1, 0)).2.2

theorem distinctSorted_mem {ts : List ℚ} {q : ℚ} :
    q ∈ distinctSorted ts ↔ q ∈ ts := by
  unfold distinctSorted
  rw [List.mem_insertionSort, List.mem_dedup]

theorem distinctSorted_nodup (ts : List ℚ) : (distinctSorted ts).Nodup := by
  unfold distinctSorted
  exact ((List.perm_insertionSort _ _).nodup_iff).mpr (List.nodup_dedup ts)

theorem distinctSorted_sorted (ts : List ℚ) :
    (distinctSorted ts).Sorted (· ≤ ·) :=
  List.sorted_insertionSort _ _

/-- Every row of the masked (and capped) AJ input has positive weight. -/
theorem ajMask_pos (rows : List (ℚ × ℤ × ℚ)) :
    ∀ r ∈ ajMask rows, 0 < r.2.2 := by
  intro r hr
  have := List.of_mem_filter hr
  simpa using this

theorem ajCap_pos (horizon : ℚ) {rows : List (ℚ × ℤ × ℚ)}
    (h : ∀ r ∈ rows, 0 < r.2.2) : ∀ r ∈ ajCap horizon rows, 0 < r.2.2 := by
  intro r hr
  rcases List.mem_map.mp hr with ⟨s, hs, rfl⟩
  exact h s hs

/-- Weight sums are unchanged by capping times. -/
theorem ajCap_wsum (horizon : ℚ) (rows : List (ℚ × ℤ × ℚ)) :
    lsum (fun r => r.2.2) (ajCap horizon rows)
      = lsum (fun r => r.2.2) rows := by
  unfold ajCap
  rw [lsum_map]

/-- Capping at a lower horizon factors through capping at a higher one. -/
theorem ajCap_cap (h1 h2 : ℚ) (hle : h1 ≤ h2) (rows : List (ℚ × ℤ × ℚ)) :
    ajCap h1 (ajCap h2 rows) = ajCap h1 rows := by
  unfold ajCap
  rw [List.map_map]
  refine List.map_congr_left (fun r _ => ?_)
  simp only [Function.comp]
  rw [min_assoc, min_comm h2 h1, min_eq_left hle]

/-- Structural facts about every AJ group of positive-weight rows:
positive total weight, non-negative event weights, events at most the
group total. -/
theorem ajGroups_facts {rows : List (ℚ × ℤ × ℚ)}
    (hw : ∀ r ∈ rows, 0 < r.2.2) :
    ∀ g ∈ ajGroups rows,
      0 < g.wt ∧ 0 ≤ g.d1 ∧ 0 ≤ g.d2 ∧ g.d1 + g.d2 ≤ g.wt := by
  intro g hg
  rcases List.mem_map.mp hg with ⟨q, hq, rfl⟩
  have hq' : q ∈ rows.map (fun r => r.1) := distinctSorted_mem.mp hq
  rcases List.mem_map.mp hq' with ⟨r0, hr0, hr0q⟩
  refine ⟨?_, ?_, ?_, ?_⟩
  · refine lsum_pos (fun r hr => ?_) ⟨r0, hr0, ?_⟩
    · by_cases ht : r.1 = q <;> simp [ht, le_of_lt (hw r hr)]
    · simp only [hr0q, if_true]
      exact hw r0 hr0
  · refine lsum_nonneg _ _ (fun r hr => ?_)
    by_cases ht : r.1 = q
    · by_cases hs : r.2.1 = 1 <;> simp [ht, hs, le_of_lt (hw r hr)]
    · simp [ht]
  · refine lsum_nonneg _ _ (fun r hr => ?_)
    by_cases ht : r.1 = q
    · by_cases hs : r.2.1 = 2 <;> simp [ht, hs, le_of_lt (hw r hr)]
    · simp [ht]
  · simp only [ajGroupAt]
    rw [← lsum_add]
    refine lsum_le_lsum (fun r hr => ?_)
    by_cases ht : r.1 = q
    · simp only [ht, if_true]
      rcases lt_trichotomy (r.2.1) 1 with hs | hs | hs
      · have h1 : r.2.1 ≠ 1 := ne_of_lt hs
        by_cases h2 : r.2.1 = 2 <;> simp [h1, h2, le_of_lt (hw r hr)]
      · have h2 : r.2.1 ≠ 2 := by rw [hs]; norm_num
        simp [hs, h2]
      · have h1 : r.2.1 ≠ 1 := ne_of_gt hs
        by_cases h2 : r.2.1 = 2 <;> simp [h1, h2, le_of_lt (hw r hr)]
    · simp [ht]

/-- The group totals sum to the overall weight total. -/
theorem ajGroups_wt_total (rows : List (ℚ × ℤ × ℚ)) :
    lsum (fun g => g.wt) (ajGroups rows) = lsum (fun r => r.2.2) rows := by
  unfold ajGroups
  rw [lsum_map]
  simp only [ajGroupAt]
  have := lsum_partition (fun r : ℚ × ℤ × ℚ => r.1) (fun r => r.2.2) rows
    (distinctSorted (rows.map (fun r => r.1))) (distinctSorted_nodup _)
  rw [this]
  refine lsum_congr (fun r hr => ?_)
  have : r.1 ∈ distinctSorted (rows.map (fun r => r.1)) :=
    distinctSorted_mem.mpr (List.mem_map_of_mem _ hr)
  simp [this]

/-- Bounds for the AJ loop: from a state with `cif ≥ 0`, `surv ≥ 0`,
`cif + surv ≤ 1`, and the at-risk bookkeeping `total - cum = Σ wt` over the
remaining groups, the final `cif` is at least the current one and at most
`1`. -/
theorem ajLoop_cif_bounds (horizon total : ℚ) (gs : List AJGroup)
    (st : ℚ × ℚ × ℚ)
    (hg : ∀ g ∈ gs, 0 < g.wt ∧ 0 ≤ g.d1 ∧ 0 ≤ g.d2 ∧ g.d1 + g.d2 ≤ g.wt)
    (hy : total - st.1 = lsum (fun g => g.wt) gs)
    (hsurv : 0 ≤ st.2.1) (hcif : 0 ≤ st.2.2) (hsum : st.2.2 + st.2.1 ≤ 1) :
    st.2.2 ≤ (ajLoop horizon total gs st).2.2
      ∧ (ajLoop horizon total gs st).2.2 ≤ 1 := by
  induction gs generalizing st with
  | nil =>
      rw [ajLoop]
      exact ⟨le_refl _, by linarith⟩
  | cons g gs ih =>
      rcases hg g (by simp) with ⟨hwt, hd1, hd2, hdw⟩
      have hrest : 0 ≤ lsum (fun g => g.wt) gs :=
        lsum_nonneg _ _ (fun g' hg' => le_of_lt (hg g' (List.mem_cons_of_mem g hg')).1)
      have hyeq : total - st.1 = g.wt + lsum (fun g' => g'.wt) gs := by
        rw [hy, lsum_cons]
      have hypos : 0 < total - st.1 := by linarith
      rw [ajLoop]
      by_cases hb : horizon < g.time
      · simp only [hb, if_true]
        exact ⟨le_refl _, by linarith⟩
      · simp only [hb, if_false]
        rw [if_neg (not_le.mpr hypos)]
        have hdy : g.d1 + g.d2 ≤ total - st.1 := by linarith
        have hcif' : st.2.2 ≤ (if 0 < g.d1 then
            st.2.2 + st.2.1 * (g.d1 / (total - st.1)) else st.2.2) := by
          by_cases hp : 0 < g.d1
          · rw [if_pos hp]
            have : 0 ≤ st.2.1 * (g.d1 / (total - st.1)) :=
              mul_nonneg hsurv (le_of_lt (div_pos hp hypos))
            linarith
          · rw [if_neg hp]
        have hsurv' : 0 ≤ (if 0 < g.d1 + g.d2 then
            st.2.1 * max 0 (1 - (g.d1 + g.d2) / (total - st.1))
            else st.2.1) := by
          by_cases hp : 0 < g.d1 + g.d2
          · rw [if_pos hp]
            exact mul_nonneg hsurv (le_max_left 0 _)
          · rw [if_neg hp]; exact hsurv
        have hnoclip : max 0 (1 - (g.d1 + g.d2) / (total - st.1))
            = 1 - (g.d1 + g.d2) / (total - st.1) :=
          max_eq_right (by
            have : (g.d1 + g.d2) / (total - st.1) ≤ 1 :=
              (div_le_one hypos).mpr hdy
            linarith)
        have hsum' : (if 0 < g.d1 then
              st.2.2 + st.2.1 * (g.d1 / (total - st.1)) else st.2.2)
            + (if 0 < g.d1 + g.d2 then
                st.2.1 * max 0 (1 - (g.d1 + g.d2) / (total - st.1))
                else st.2.1) ≤ 1 := by
          by_cases hp : 0 < g.d1
          · have hpd : 0 < g.d1 + g.d2 := by linarith
            rw [if_pos hp, if_pos hpd, hnoclip]
            have hkey : st.2.1 * (g.d1 / (total - st.1))
                + st.2.1 * (1 - (g.d1 + g.d2) / (total - st.1)) ≤ st.2.1 := by
              have hd2y : 0 ≤ g.d2 / (total - st.1) :=
                div_nonneg hd2 (le_of_lt hypos)
              have hsplit : g.d1 / (total - st.1)
                  + (1 - (g.d1 + g.d2) / (total - st.1))
                  = 1 - g.d2 / (total - st.1) := by
                field_simp
                ring
              nlinarith [hsurv, hd2y, hsplit]
            linarith
          · rw [if_neg hp]
            by_cases hpd : 0 < g.d1 + g.d2
            · rw [if_pos hpd, hnoclip]
              have hdd : 0 ≤ (g.d1 + g.d2) / (total - st.1) :=
                div_nonneg (by linarith) (le_of_lt hypos)
              nlinarith [hsurv]
            · rw [if_neg hpd]
              exact hsum
        have hcif0' : 0 ≤ (if 0 < g.d1 then
            st.2.2 + st.2.1 * (g.d1 / (total - st.1)) else st.2.2) := by
          by_cases hp : 0 < g.d1
          · rw [if_pos hp]
            have : 0 ≤ st.2.1 * (g.d1 / (total - st.1)) :=
              mul_nonneg hsurv (le_of_lt (div_pos hp hypos))
            linarith
          · rw [if_neg hp]; exact hcif
        have hy' : total - (st.1 + g.wt) = lsum (fun g' => g'.wt) gs := by
          linarith
        have hrec := ih (st.1 + g.wt,
          (if 0 < g.d1 + g.d2 then
            st.2.1 * max 0 (1 - (g.d1 + g.d2) / (total - st.1)) else st.2.1),
          (if 0 < g.d1 then st.2.2 + st.2.1 * (g.d1 / (total - st.1))
            else st.2.2))
          (fun g' hg' => hg g' (List.mem_cons_of_mem g hg'))
          (by simpa using hy') hsurv' hcif0' hsum'
        exact ⟨le_trans hcif' hrec.1, hrec.2⟩

/-- With every group time at most the horizon (as capping guarantees), the
`break` never fires and the loop equals its break-free version. -/
theorem ajLoop_eq_runNB (horizon total : ℚ) (gs : List AJGroup)
    (st : ℚ × ℚ × ℚ) (ht : ∀ g ∈ gs, g.time ≤ horizon) :
    ajLoop horizon total gs st = ajRunNB total gs st := by
  induction gs generalizing st with
  | nil => rw [ajLoop, ajRunNB]
  | cons g gs ih =>
      rw [ajLoop, ajRunNB]
      rw [if_neg (not_lt.mpr (ht g (by simp)))]
      by_cases hy0 : total - st.1 ≤ 0
      · rw [if_pos hy0, if_pos hy0]
        exact ih _ (fun g' hg' => ht g' (List.mem_cons_of_mem g hg'))
      · rw [if_neg hy0, if_neg hy0]
        exact ih _ (fun g' hg' => ht g' (List.mem_cons_of_mem g hg'))

theorem ajRunNB_append (total : ℚ) (A B : List AJGroup) (st : ℚ × ℚ × ℚ) :
    ajRunNB total (A ++ B) st = ajRunNB total B (ajRunNB total A st) := by
  induction A generalizing st with
  | nil => rw [ajRunNB]; rfl
  | cons g A ih =>
      rw [List.cons_append, ajRunNB, ajRunNB]
      by_cases hy : total - st.1 ≤ 0
      · rw [if_pos hy, if_pos hy, ih]
      · rw [if_neg hy, if_neg hy, ih]

theorem ajRunNB_cum (total : ℚ) (gs : List AJGroup) (st : ℚ × ℚ × ℚ) :
    (ajRunNB total gs st).1 = st.1 + lsum (fun g => g.wt) gs := by
  induction gs generalizing st with
  | nil => rw [ajRunNB, lsum_nil]; ring
  | cons g gs ih =>
      rw [ajRunNB, lsum_cons]
      by_cases hy : total - st.1 ≤ 0
      · rw [if_pos hy, ih]
        show st.1 + g.wt + lsum (fun g => g.wt) gs
          = st.1 + (g.wt + lsum (fun g => g.wt) gs)
        ring
      · rw [if_neg hy, ih]
        show st.1 + g.wt + lsum (fun g => g.wt) gs
          = st.1 + (g.wt + lsum (fun g => g.wt) gs)
        ring

theorem ajRunNB_surv_nonneg (total : ℚ) (gs : List AJGroup)
    (st : ℚ × ℚ × ℚ) (hs : 0 ≤ st.2.1) : 0 ≤ (ajRunNB total gs st).2.1 := by
  induction gs generalizing st with
  | nil => rw [ajRunNB]; exact hs
  | cons g gs ih =>
      rw [ajRunNB]
      by_cases hy : total - st.1 ≤ 0
      · rw [if_pos hy]; exact ih _ hs
      · rw [if_neg hy]
        refine ih _ ?_
        simp only
        by_cases hp : 0 < g.d1 + g.d2
        · rw [if_pos hp]
          exact mul_nonneg hs (le_max_left 0 _)
        · rw [if_neg hp]; exact hs

/-- The break-free loop on a single group adds exactly `surv · d1 / y`. -/
theorem ajRunNB_single (total : ℚ) (m : AJGroup) (st : ℚ × ℚ × ℚ)
    (hy : 0 < total - st.1) (hd1 : 0 ≤ m.d1) :
    (ajRunNB total [m] st).2.2
      = st.2.2 + st.2.1 * (m.d1 / (total - st.1)) := by
  rw [ajRunNB, if_neg (not_le.mpr hy), ajRunNB]
  simp only
  by_cases hp : 0 < m.d1
  · rw [if_pos hp]
  · rw [if_neg hp]
    have : m.d1 = 0 := le_antisymm (not_lt.mp hp) hd1
    rw [this]
    simp

/-- The division step of the merge comparison: splitting one group off the
front andrunning it exactly can only improve on the merged single-group
value, because the survival factor `1 - D/y` is at least the remaining
at-risk fraction `W/y`. -/
theorem aj_step_div_ineq (surv y W S d1 D wt : ℚ)
    (hsurv : 0 ≤ surv) (hy : 0 < y) (hW : 0 < W) (hS : 0 ≤ S)
    (hyeq : y = wt + W) (hDw : D ≤ wt) :
    surv * ((d1 + S) / y)
      ≤ surv * (d1 / y) + surv * (1 - D / y) * (S / W) := by
  have key : surv * (S / y) ≤ surv * (1 - D / y) * (S / W) := by
    rw [← mul_le_mul_right (mul_pos hy hW)]
    have e1 : surv * (S / y) * (y * W) = surv * S * W := by
      field_simp
      ring
    have e2 : surv * (1 - D / y) * (S / W) * (y * W) = surv * (y - D) * S := by
      field_simp
    rw [e1, e2]
    nlinarith [mul_nonneg (mul_nonneg hsurv hS)
      (show (0:ℚ) ≤ y - D - W by linarith)]
  rw [add_div, mul_add]
  linarith [key]

/-- Suffix lower bound: running the remaining groups from a state whose
at-risk total is exactly their weight sum yields a `cif` at least
`cif + surv · (Σ d1) / y` — the value a single merged group would give. -/
theorem ajRunNB_suffix_ge (total : ℚ) (gs : List AJGroup) (st : ℚ × ℚ × ℚ)
    (hg : ∀ g ∈ gs, 0 < g.wt ∧ 0 ≤ g.d1 ∧ 0 ≤ g.d2 ∧ g.d1 + g.d2 ≤ g.wt)
    (hy : total - st.1 = lsum (fun g => g.wt) gs)
    (hsurv : 0 ≤ st.2.1) :
    st.2.2 + st.2.1 * (lsum (fun g => g.d1) gs / (total - st.1))
      ≤ (ajRunNB total gs st).2.2 := by
  induction gs generalizing st with
  | nil =>
      rw [ajRunNB, lsum_nil]
      simp
  | cons g gs ih =>
      rcases hg g (by simp) with ⟨hwt, hd1, hd2, hdw⟩
      have hgrest := fun g' hg' => hg g' (List.mem_cons_of_mem g hg')
      have hrest : 0 ≤ lsum (fun g' => g'.wt) gs :=
        lsum_nonneg _ _ (fun g' hg' => le_of_lt (hgrest g' hg').1)
      have hd1rest : 0 ≤ lsum (fun g' => g'.d1) gs :=
        lsum_nonneg _ _ (fun g' hg' => (hgrest g' hg').2.1)
      have hyeq : total - st.1 = g.wt + lsum (fun g' => g'.wt) gs := by
        rw [hy, lsum_cons]
      have hypos : 0 < total - st.1 := by linarith
      rw [ajRunNB, if_neg (not_le.mpr hypos)]
      have hcifeq : (if 0 < g.d1 then
          st.2.2 + st.2.1 * (g.d1 / (total - st.1)) else st.2.2)
          = st.2.2 + st.2.1 * (g.d1 / (total - st.1)) := by
        by_cases hp : 0 < g.d1
        · rw [if_pos hp]
        · rw [if_neg hp]
          have : g.d1 = 0 := le_antisymm (not_lt.mp hp) hd1
          rw [this]
          simp
      have hnoclip : max 0 (1 - (g.d1 + g.d2) / (total - st.1))
          = 1 - (g.d1 + g.d2) / (total - st.1) :=
        max_eq_right (by
          have hdy : g.d1 + g.d2 ≤ total - st.1 := by linarith
          have : (g.d1 + g.d2) / (total - st.1) ≤ 1 :=
            (div_le_one hypos).mpr hdy
          linarith)
      have hsurveq : (if 0 < g.d1 + g.d2 then
          st.2.1 * max 0 (1 - (g.d1 + g.d2) / (total - st.1)) else st.2.1)
          = st.2.1 * (1 - (g.d1 + g.d2) / (total - st.1)) := by
        by_cases hp : 0 < g.d1 + g.d2
        · rw [if_pos hp, hnoclip]
        · rw [if_neg hp]
          have h1 : g.d1 = 0 := by linarith [not_lt.mp hp]
          have h2 : g.d2 = 0 := by linarith [not_lt.mp hp]
          rw [h1, h2]
          simp
      rw [hcifeq, hsurveq]
      have hy' : total - (st.1 + g.wt) = lsum (fun g' => g'.wt) gs := by
        linarith
      have hsurv' : 0 ≤ st.2.1 * (1 - (g.d1 + g.d2) / (total - st.1)) := by
        have : 0 ≤ 1 - (g.d1 + g.d2) / (total - st.1) := by
          rw [← hnoclip]
          exact le_max_left 0 _
        exact mul_nonneg hsurv this
      have hrec := ih (st.1 + g.wt,
        st.2.1 * (1 - (g.d1 + g.d2) / (total - st.1)),
        st.2.2 + st.2.1 * (g.d1 / (total - st.1)))
        hgrest (by simpa using hy') hsurv'
      dsimp only at hrec
      rw [hy'] at hrec
      refine le_trans ?_ hrec
      rw [lsum_cons]
      by_cases hW : lsum (fun g' => g'.wt) gs = 0
      · have hnil : gs = [] := by
          by_contra hne
          rcases List.exists_mem_of_ne_nil gs hne with ⟨g0, hg0⟩
          have : 0 < lsum (fun g' => g'.wt) gs :=
            lsum_pos (fun g' hg' => le_of_lt (hgrest g' hg').1)
              ⟨g0, hg0, (hgrest g0 hg0).1⟩
          exact this.ne' hW
        subst hnil
        rw [lsum_nil]
        simp
      · have hWpos : 0 < lsum (fun g' => g'.wt) gs :=
          lt_of_le_of_ne hrest (Ne.symm hW)
        have hstep := aj_step_div_ineq st.2.1 (total - st.1)
          (lsum (fun g' => g'.wt) gs) (lsum (fun g' => g'.d1) gs)
          g.d1 (g.d1 + g.d2) g.wt hsurv hypos hWpos hd1rest hyeq hdw
        linarith [hstep]

/-- If every time is already below the horizon, capping changes nothing. -/
theorem ajCap_eq_self {h1 : ℚ} {rows : List (ℚ × ℤ × ℚ)}
    (h : ∀ r ∈ rows, r.1 < h1) : ajCap h1 rows = rows := by
  unfold ajCap
  have : rows.map (fun r => (min r.1 h1, r.2.1, r.2.2)) = rows.map id := by
    refine List.map_congr_left (fun r hr => ?_)
    rcases r with ⟨a, b, c⟩
    simp only [id]
    rw [min_eq_left (le_of_lt (h _ hr))]
  rw [this, List.map_id]

/-- Distinct sorted times after capping: the times strictly below the
horizon followed by the horizon itself (when some time reaches it). -/
theorem distinctSorted_cap (h1 : ℚ) (rows : List (ℚ × ℤ × ℚ))
    (hex : ∃ r ∈ rows, h1 ≤ r.1) :
    distinctSorted ((ajCap h1 rows).map (fun r => r.1))
      = (distinctSorted (rows.map (fun r => r.1))).filter
          (fun q => decide (q < h1)) ++ [h1] := by
  have hnd1 : (distinctSorted ((ajCap h1 rows).map (fun r => r.1))).Nodup :=
    distinctSorted_nodup _
  have hndf : ((distinctSorted (rows.map (fun r => r.1))).filter
      (fun q => decide (q < h1))).Nodup :=
    (distinctSorted_nodup _).filter _
  have hnd2 : ((distinctSorted (rows.map (fun r => r.1))).filter
      (fun q => decide (q < h1)) ++ [h1]).Nodup := by
    rw [List.nodup_append]
    refine ⟨hndf, List.nodup_singleton _, ?_⟩
    intro q hq hq1
    have hlt : q < h1 := by simpa using List.of_mem_filter hq
    rcases List.mem_singleton.mp hq1 with rfl
    exact lt_irrefl _ hlt
  have hmem : ∀ q, q ∈ distinctSorted ((ajCap h1 rows).map (fun r => r.1))
      ↔ q ∈ (distinctSorted (rows.map (fun r => r.1))).filter
          (fun q => decide (q < h1)) ++ [h1] := by
    intro q
    rw [distinctSorted_mem, List.mem_append, List.mem_filter,
      distinctSorted_mem, List.mem_singleton]
    constructor
    · intro hq
      rcases List.mem_map.mp hq with ⟨r', hr', hq'⟩
      rcases List.mem_map.mp hr' with ⟨r, hr, rfl⟩
      rcases le_or_lt h1 r.1 with hcase | hcase
      · right
        rw [← hq']
        exact (min_eq_right hcase).symm ▸ rfl
      · left
        have : min r.1 h1 = r.1 := min_eq_left (le_of_lt hcase)
        rw [this] at hq'
        subst hq'
        exact ⟨List.mem_map_of_mem _ hr, by simpa using hcase⟩
    · intro hq
      rcases hq with ⟨hq, hlt⟩ | hqe
      · rcases List.mem_map.mp hq with ⟨r, hr, rfl⟩
        have hlt' : r.1 < h1 := by simpa using hlt
        refine List.mem_map.mpr ⟨(min r.1 h1, r.2.1, r.2.2), ?_, ?_⟩
        · exact List.mem_map_of_mem _ hr
        · simp [min_eq_left (le_of_lt hlt')]
      · rcases hex with ⟨r, hr, hge⟩
        refine List.mem_map.mpr ⟨(min r.1 h1, r.2.1, r.2.2), ?_, ?_⟩
        · exact List.mem_map_of_mem _ hr
        · simp [min_eq_right hge, hqe]
  have hs1 : (distinctSorted ((ajCap h1 rows).map (fun r => r.1))).Sorted
      (· ≤ ·) := distinctSorted_sorted _
  have hs2 : ((distinctSorted (rows.map (fun r => r.1))).filter
      (fun q => decide (q < h1)) ++ [h1]).Sorted (· ≤ ·) := by
    rw [List.Sorted, List.pairwise_append]
    refine ⟨(distinctSorted_sorted _).filter _, List.sorted_singleton _, ?_⟩
    intro a ha b hb
    rcases List.mem_singleton.mp hb with rfl
    have : a < b := by simpa using List.of_mem_filter ha
    exact le_of_lt this
  exact List.eq_of_perm_of_sorted
    ((List.perm_ext_iff_of_nodup hnd1 hnd2).mpr hmem) hs1 hs2

/-- Below the horizon, per-time aggregates are unchanged by capping. -/
theorem ajGroupAt_cap_lt (h1 q : ℚ) (rows : List (ℚ × ℤ × ℚ))
    (hq : q < h1) : ajGroupAt (ajCap h1 rows) q = ajGroupAt rows q := by
  have hpt : ∀ (f : ℤ × ℚ → ℚ) (r : ℚ × ℤ × ℚ), r ∈ rows →
      (if min r.1 h1 = q then f r.2 else 0) = if r.1 = q then f r.2 else 0 := by
    intro f r _
    rcases le_or_lt h1 r.1 with hc | hc
    · rw [min_eq_right hc]
      have h1q : ¬(h1 = q) := by intro h; rw [h] at hq; exact lt_irrefl _ hq
      have hrq : ¬(r.1 = q) := by
        intro h
        rw [h] at hc
        exact absurd (lt_of_le_of_lt hc hq) (lt_irrefl _)
      rw [if_neg h1q, if_neg hrq]
    · rw [min_eq_left (le_of_lt hc)]
  unfold ajGroupAt ajCap
  rw [AJGroup.mk.injEq]
  refine ⟨rfl, ?_, ?_, ?_⟩
  · rw [lsum_map]
    exact lsum_congr (fun r hr => hpt (fun p => p.2) r hr)
  · rw [lsum_map]
    exact lsum_congr (fun r hr =>
      hpt (fun p => if p.1 = 1 then p.2 else 0) r hr)
  · rw [lsum_map]
    exact lsum_congr (fun r hr =>
      hpt (fun p => if p.1 = 2 then p.2 else 0) r hr)

/-- The capped aggregate at the horizon collects all rows at or beyond it. -/
theorem ajGroupAt_cap_merge (h1 : ℚ) (rows : List (ℚ × ℤ × ℚ)) :
    ajGroupAt (ajCap h1 rows) h1
      = ⟨h1,
          lsum (fun r => if h1 ≤ r.1 then r.2.2 else 0) rows,
          lsum (fun r => if h1 ≤ r.1 then
            (if r.2.1 = 1 then r.2.2 else 0) else 0) rows,
          lsum (fun r => if h1 ≤ r.1 then
            (if r.2.1 = 2 then r.2.2 else 0) else 0) rows⟩ := by
  have hpt : ∀ (f : ℤ × ℚ → ℚ) (r : ℚ × ℤ × ℚ), r ∈ rows →
      (if min r.1 h1 = h1 then f r.2 else 0)
        = if h1 ≤ r.1 then f r.2 else 0 := by
    intro f r _
    rcases le_or_lt h1 r.1 with hc | hc
    · rw [min_eq_right hc, if_pos rfl, if_pos hc]
    · rw [min_eq_left (le_of_lt hc), if_neg (ne_of_lt hc),
        if_neg (not_le.mpr hc)]
  unfold ajGroupAt ajCap
  rw [AJGroup.mk.injEq]
  refine ⟨rfl, ?_, ?_, ?_⟩
  · rw [lsum_map]
    exact lsum_congr (fun r hr => hpt (fun p => p.2) r hr)
  · rw [lsum_map]
    exact lsum_congr (fun r hr =>
      hpt (fun p => if p.1 = 1 then p.2 else 0) r hr)
  · rw [lsum_map]
    exact lsum_congr (fun r hr =>
      hpt (fun p => if p.1 = 2 then p.2 else 0) r hr)

/-- Any group list splits at a time threshold (times are sorted). -/
theorem ajGroups_split (h1 : ℚ) (rows : List (ℚ × ℤ × ℚ)) :
    ajGroups rows
      = ((distinctSorted (rows.map (fun r => r.1))).filter
          (fun q => decide (q < h1))).map (ajGroupAt rows)
        ++ ((distinctSorted (rows.map (fun r => r.1))).filter
          (fun q => decide (h1 ≤ q))).map (ajGroupAt rows) := by
  unfold ajGroups
  nth_rewrite 1 [sorted_split_at h1 _ (distinctSorted_sorted _)]
  rw [List.map_append]

/-- Group table of the capped dataset: the strictly-below-horizon groups of
the original dataset followed by one merged group at the horizon. -/
theorem ajGroups_cap_split (h1 : ℚ) (rows : List (ℚ × ℤ × ℚ))
    (hex : ∃ r ∈ rows, h1 ≤ r.1) :
    ajGroups (ajCap h1 rows)
      = ((distinctSorted (rows.map (fun r => r.1))).filter
          (fun q => decide (q < h1))).map (ajGroupAt rows)
        ++ [ajGroupAt (ajCap h1 rows) h1] := by
  unfold ajGroups
  rw [distinctSorted_cap h1 rows hex, List.map_append]
  congr 1
  refine List.map_congr_left (fun q hq => ?_)
  have : q < h1 := by simpa using List.of_mem_filter hq
  exact ajGroupAt_cap_lt h1 q rows this

/-- Sums of per-time aggregates over the at-or-beyond-horizon times equal
the corresponding thresholded row sums. -/
theorem bsum_partition (h1 : ℚ) (rows : List (ℚ × ℤ × ℚ))
    (f : (ℚ × ℤ × ℚ) → ℚ) :
    lsum (fun q => lsum (fun r => if r.1 = q then f r else 0) rows)
      ((distinctSorted (rows.map (fun r => r.1))).filter
        (fun q => decide (h1 ≤ q)))
      = lsum (fun r => if h1 ≤ r.1 then f r else 0) rows := by
  rw [lsum_partition (fun r => r.1) f rows _ ((distinctSorted_nodup _).filter _)]
  refine lsum_congr (fun r hr => ?_)
  by_cases hc : h1 ≤ r.1
  · have hmem : r.1 ∈ (distinctSorted (rows.map (fun r => r.1))).filter
        (fun q => decide (h1 ≤ q)) :=
      List.mem_filter.mpr
        ⟨distinctSorted_mem.mpr (List.mem_map_of_mem _ hr), by simpa using hc⟩
    rw [if_pos hmem, if_pos hc]
  · have hmem : r.1 ∉ (distinctSorted (rows.map (fun r => r.1))).filter
        (fun q => decide (h1 ≤ q)) := by
      intro hmem
      exact hc (by simpa using (List.mem_filter.mp hmem).2)
    rw [if_neg hmem, if_neg hc]

theorem bsum_wt (h1 : ℚ) (rows : List (ℚ × ℤ × ℚ)) :
    lsum (fun g => g.wt)
      (((distinctSorted (rows.map (fun r => r.1))).filter
        (fun q => decide (h1 ≤ q))).map (ajGroupAt rows))
      = lsum (fun r => if h1 ≤ r.1 then r.2.2 else 0) rows := by
  rw [lsum_map]
  simp only [ajGroupAt]
  exact bsum_partition h1 rows (fun r => r.2.2)

theorem bsum_d1 (h1 : ℚ) (rows : List (ℚ × ℤ × ℚ)) :
    lsum (fun g => g.d1)
      (((distinctSorted (rows.map (fun r => r.1))).filter
        (fun q => decide (h1 ≤ q))).map (ajGroupAt rows))
      = lsum (fun r => if h1 ≤ r.1 then
          (if r.2.1 = 1 then r.2.2 else 0) else 0) rows := by
  rw [lsum_map]
  simp only [ajGroupAt]
  exact bsum_partition h1 rows (fun r => if r.2.1 = 1 then r.2.2 else 0)

/-- All group times of a capped dataset are at most the horizon. -/
theorem ajGroups_time_le (h : ℚ) (rows : List (ℚ × ℤ × ℚ)) :
    ∀ g ∈ ajGroups (ajCap h rows), g.time ≤ h := by
  intro g hg
  rcases List.mem_map.mp hg with ⟨q, hq, rfl⟩
  have hq' : q ∈ (ajCap h rows).map (fun r => r.1) := distinctSorted_mem.mp hq
  rcases List.mem_map.mp hq' with ⟨r, hr, hq2⟩
  rcases List.mem_map.mp hr with ⟨r0, _, rfl⟩
  show q ≤ h
  rw [← hq2]
  exact min_le_right _ _

set_option maxHeartbeats 1000000 in
/-- C5: the weighted Aalen–Johansen cause-1 cumulative incidence is within
`[0, 1]` whenever it is defined (positive total weight after the `w > 0`
mask), and for a fixed `(time, status, weight)` dataset it is non-decreasing
in the horizon argument. -/
theorem weighted_aj_cif_at_bounded_monotone :
    (∀ (rows : List (ℚ × ℤ × ℚ)) (h c : ℚ),
        weighted_aj_cif_at rows h = some c → 0 ≤ c ∧ c ≤ 1)
    ∧ (∀ (rows : List (ℚ × ℤ × ℚ)) (h1 h2 c1 c2 : ℚ), h1 ≤ h2 →
        weighted_aj_cif_at rows h1 = some c1 →
        weighted_aj_cif_at rows h2 = some c2 → c1 ≤ c2) := by
  constructor
  · intro rows h c he
    simp only [weighted_aj_cif_at, ajCap_wsum] at he
    by_cases hm : ajMask rows = []
    · simp [hm] at he
    by_cases hT : lsum (fun r => r.2.2) (ajMask rows) ≤ 0
    · simp [hm, hT] at he
    rw [if_neg hm, if_neg hT] at he
    have hX := Option.some.inj he
    have hfacts := ajGroups_facts (ajCap_pos h (ajMask_pos rows))
    have hy0 : lsum (fun r => r.2.2) (ajMask rows) - ((0:ℚ), (1:ℚ), (0:ℚ)).1
        = lsum (fun g => g.wt) (ajGroups (ajCap h (ajMask rows))) := by
      rw [ajGroups_wt_total, ajCap_wsum]
      show lsum (fun r => r.2.2) (ajMask rows) - 0 = _
      ring
    have hb := ajLoop_cif_bounds h (lsum (fun r => r.2.2) (ajMask rows))
      (ajGroups (ajCap h (ajMask rows))) (0, 1, 0) hfacts hy0
      (by norm_num) (by norm_num) (by norm_num)
    rw [hX] at hb
    exact ⟨le_trans (by norm_num) hb.1, hb.2⟩
  · intro rows h1 h2 c1 c2 hle e1 e2
    simp only [weighted_aj_cif_at, ajCap_wsum] at e1 e2
    by_cases hm : ajMask rows = []
    · simp [hm] at e1
    by_cases hT : lsum (fun r => r.2.2) (ajMask rows) ≤ 0
    · simp [hm, hT] at e1
    rw [if_neg hm, if_neg hT] at e1 e2
    have hc1 := Option.some.inj e1
    have hc2 := Option.some.inj e2
    have hcaprel : ajCap h1 (ajMask rows)
        = ajCap h1 (ajCap h2 (ajMask rows)) :=
      (ajCap_cap h1 h2 hle (ajMask rows)).symm
    rw [hcaprel] at hc1
    rw [ajLoop_eq_runNB _ _ _ _ (by
        rw [← hcaprel]
        exact ajGroups_time_le h1 (ajMask rows))] at hc1
    rw [ajLoop_eq_runNB _ _ _ _ (ajGroups_time_le h2 (ajMask rows))] at hc2
    set T := lsum (fun r => r.2.2) (ajMask rows) with hT_def
    set D := ajCap h2 (ajMask rows) with hD_def
    have hDpos : ∀ r ∈ D, 0 < r.2.2 := ajCap_pos h2 (ajMask_pos rows)
    have hCpos : ∀ r ∈ ajCap h1 D, 0 < r.2.2 := ajCap_pos h1 hDpos
    set Q := distinctSorted (D.map (fun r => r.1)) with hQ_def
    set A := (Q.filter (fun q => decide (q < h1))).map (ajGroupAt D)
      with hA_def
    set B := (Q.filter (fun q => decide (h1 ≤ q))).map (ajGroupAt D)
      with hB_def
    set M := ajGroupAt (ajCap h1 D) h1 with hM_def
    by_cases hex : ∃ r ∈ D, h1 ≤ r.1
    · have hsplitD : ajGroups D = A ++ B := ajGroups_split h1 D
      have hsplitC : ajGroups (ajCap h1 D) = A ++ [M] :=
        ajGroups_cap_split h1 D hex
      rw [hsplitC, ajRunNB_append] at hc1
      rw [hsplitD, ajRunNB_append] at hc2
      set stA := ajRunNB T A (0, 1, 0) with hstA_def
      have hsurvA : 0 ≤ stA.2.1 :=
        ajRunNB_surv_nonneg _ _ _ (by norm_num)
      have hcumA : stA.1 = ((0:ℚ), (1:ℚ), (0:ℚ)).1
          + lsum (fun g => g.wt) A := ajRunNB_cum _ _ _
      have hTgroups : lsum (fun g => g.wt) (ajGroups D) = T := by
        rw [ajGroups_wt_total, hD_def, ajCap_wsum]
      have hAB : lsum (fun g => g.wt) A + lsum (fun g => g.wt) B = T := by
        rw [← lsum_append, ← hsplitD, hTgroups]
      have hyB : T - stA.1 = lsum (fun g => g.wt) B := by
        rw [hcumA]
        show T - (0 + lsum (fun g => g.wt) A) = lsum (fun g => g.wt) B
        linarith [hAB]
      have hBfacts : ∀ g ∈ B,
          0 < g.wt ∧ 0 ≤ g.d1 ∧ 0 ≤ g.d2 ∧ g.d1 + g.d2 ≤ g.wt := by
        intro g hg
        refine ajGroups_facts hDpos g ?_
        rw [hsplitD]
        exact List.mem_append_right _ hg
      have hMfacts : 0 < M.wt ∧ 0 ≤ M.d1 ∧ 0 ≤ M.d2
          ∧ M.d1 + M.d2 ≤ M.wt := by
        refine ajGroups_facts hCpos _ ?_
        rw [hsplitC]
        exact List.mem_append_right _ (by simp)
      have hMwt : M.wt = lsum (fun g => g.wt) B := by
        rw [hB_def, hQ_def, bsum_wt, hM_def, ajGroupAt_cap_merge]
      have hMd1 : M.d1 = lsum (fun g => g.d1) B := by
        rw [hB_def, hQ_def, bsum_d1, hM_def, ajGroupAt_cap_merge]
      have hyBpos : 0 < T - stA.1 := by
        rw [hyB, ← hMwt]
        exact hMfacts.1
      have hsingle := ajRunNB_single T M stA hyBpos hMfacts.2.1
      have hsuffix := ajRunNB_suffix_ge T B stA hBfacts hyB hsurvA
      rw [← hc1, ← hc2]
      rw [hsingle, hMd1]
      exact hsuffix
    · push_neg at hex
      have hall : ∀ r ∈ D, r.1 < h1 := hex
      rw [ajCap_eq_self hall] at hc1
      rw [← hc1, ← hc2]

/-- Witness for `weighted_aj_cif_at_bounded_monotone`: one censored and one
interest-event subject; the CIF at horizon `4` is `1/2` and at horizon `7`
it is `1`. -/
theorem weighted_aj_cif_at_bounded_monotone_witness :
    (0 ≤ (1/2 : ℚ) ∧ (1/2 : ℚ) ≤ 1) ∧ (1/2 : ℚ) ≤ 1 :=
  ⟨weighted_aj_cif_at_bounded_monotone.1 [(5, 0, 1), (10, 1, 1)] 4 (1/2)
      (by
        norm_num [weighted_aj_cif_at, ajMask, ajCap, ajGroups, ajGroupAt,
          ajLoop, distinctSorted, lsum, List.insertionSort,
          List.orderedInsert]
        intro h
        simp at h),
    weighted_aj_cif_at_bounded_monotone.2 [(5, 0, 1), (10, 1, 1)] 4 7
      (1/2) 1 (by norm_num)
      (by
        norm_num [weighted_aj_cif_at, ajMask, ajCap, ajGroups, ajGroupAt,
          ajLoop, distinctSorted, lsum, List.insertionSort,
          List.orderedInsert]
        intro h
        simp at h)
      (by
        norm_num [weighted_aj_cif_at, ajMask, ajCap, ajGroups, ajGroupAt,
          ajLoop, distinctSorted, lsum, List.insertionSort,
          List.orderedInsert]
        intro h
        simp at h)⟩

/-! ## Competing-risk resolution in `weighted_competing_risk_cif_rr_at`
(effects.py lines 324–346)

```python
work = df.dropna(subset=[treatment, interest_event, interest_time, weight])
t  = ...astype int;  ei = ...fillna(0)...astype int
ti = ...float;       ec = ...fillna(0)...astype int;  tc = ...float
horizon = float(horizon_days)
censor_time  = np.minimum(ti, horizon)
interest_time = np.where(ei == 1, np.minimum(ti, horizon), np.inf)
comp_time = np.where((ec == 1) & np.isfinite(tc) & (tc <= horizon),
                     np.minimum(tc, horizon), np.inf)
time = censor_time.copy(); status = 0
m1 = (interest_time <= comp_time) & (interest_time <= censor_time)
m2 = (comp_time < interest_time) & (comp_time <= censor_time)
status[m1] = 1; time[m1] = interest_time[m1]
status[m2] = 2; time[m2] = comp_time[m2]
```

`Option ℚ` with `none` as `+inf` models the `np.inf` sentinels; a missing
`tc` (NaN) fails `np.isfinite` and also maps to `none`.  The two masks are
disjoint, so applying `m2` after `m1` is the nested conditional below. -/

/-- `a ≤ b` where `none` stands for `+inf`. -/
def oleq : Option ℚ → Option ℚ → Bool
  | none, none => true
  | none, some _ => false
  | some _, none => true
  | some x, some y => decide (x ≤ y)

/-- `a < b` where `none` stands for `+inf`. -/
def olt : Option ℚ → Option ℚ → Bool
  | none, _ => false
  | some _, none => true
  | some x, some y => decide (x < y)

/-- One subject's follow-up resolved to a `(time, status)` pair. -/
def resolveSubject (horizon : ℚ) (ei : ℤ) (ti : ℚ) (ec : ℤ)
    (tc : Option ℚ) : ℚ × ℤ :=
  let censorTime := min ti horizon
  let interestTime : Option ℚ :=
    if ei = 1 then some (min ti horizon) else none
  let compTime : Option ℚ :=
    match tc with
    | some v => if ec = 1 ∧ v ≤ horizon then some (min v horizon) else none
    | none => none
  if olt compTime interestTime ∧ oleq compTime (some censorTime) then
    (compTime.getD censorTime, 2)
  else if oleq interestTime compTime ∧ oleq interestTime (some censorTime)
      then (interestTime.getD censorTime, 1)
  else (censorTime, 0)

/-- C1 counterexample input: an interest event at day `20`, horizon `14`:
the claim says it should be censored at the horizon (status `0`), but the
code codes it as an interest event at the horizon — `interest_time` is
`min(ti, horizon)` with no `ti ≤ horizon` guard (unlike the competing
event, which has the `tc <= horizon` guard). -/
theorem resolveSubject_post_horizon_counterexample :
    resolveSubject 14 1 20 0 none = (14, 1)
      ∧ (14:ℚ) < 20 ∧ ((1:ℤ) ≠ 0) := by
  refine ⟨?_, by norm_num, by norm_num⟩
  norm_num [resolveSubject, oleq, olt]

/-- C1 (amended): the resolution gives status `1` at time `min(ti, horizon)`
whenever `ei = 1` and no counted competing event (`ec = 1`, finite
`tc ≤ horizon`) is strictly earlier — even when the interest event itself
occurs after the horizon; it gives status `2` at time `tc` for a counted
competing event at or before `min(ti, horizon)` and strictly before any
interest event; otherwise status `0` at time `min(ti, horizon)`. -/
theorem resolveSubject_characterization (h : ℚ) (ei : ℤ) (ti : ℚ)
    (ec : ℤ) (tc : Option ℚ) :
    ((ei = 1 ∧ (∀ v, tc = some v → ec = 1 → v ≤ h → min ti h ≤ v)) →
        resolveSubject h ei ti ec tc = (min ti h, 1))
    ∧ (∀ v, tc = some v → ec = 1 → v ≤ h → v ≤ min ti h →
        (ei = 1 → v < min ti h) →
        resolveSubject h ei ti ec tc = (v, 2))
    ∧ ((ei ≠ 1 ∧ (∀ v, tc = some v → ec = 1 → v ≤ h → ¬(v ≤ min ti h))) →
        resolveSubject h ei ti ec tc = (min ti h, 0)) := by
  refine ⟨?_, ?_, ?_⟩
  · rintro ⟨hei, hno⟩
    unfold resolveSubject
    rw [if_pos hei]
    cases tc with
    | none =>
        simp [olt, oleq]
    | some v =>
        by_cases hcount : ec = 1 ∧ v ≤ h
        · have hge : min ti h ≤ v := hno v rfl hcount.1 hcount.2
          have hmv : min v h = v := min_eq_left hcount.2
          simp only [if_pos hcount, hmv]
          rw [if_neg, if_pos]
          · simp
          · constructor <;> simp [oleq, hge, le_refl]
          · intro hcon
            rcases hcon with ⟨h1, _⟩
            simp only [olt, decide_eq_true_eq] at h1
            exact absurd h1 (not_lt.mpr hge)
        · simp only [if_neg hcount]
          simp [olt, oleq]
  · intro v hv hec hvh hvcensor hvlt
    subst hv
    unfold resolveSubject
    have hmv : min v h = v := min_eq_left hvh
    simp only [if_pos (And.intro hec hvh), hmv]
    rw [if_pos]
    · simp
    · constructor
      · by_cases hei : ei = 1
        · have := hvlt hei
          simp [hei, olt, this]
        · simp [hei, olt]
      · simp [oleq, hvcensor]
  · rintro ⟨hei, hno⟩
    unfold resolveSubject
    rw [if_neg hei]
    cases tc with
    | none =>
        simp [olt, oleq]
    | some v =>
        by_cases hcount : ec = 1 ∧ v ≤ h
        · have hgt : ¬(v ≤ min ti h) := hno v rfl hcount.1 hcount.2
          have hmv : min v h = v := min_eq_left hcount.2
          simp only [if_pos hcount, hmv]
          rw [if_neg, if_neg]
          · simp [oleq]
          · intro hcon
            rcases hcon with ⟨_, hc2⟩
            simp only [oleq, decide_eq_true_eq] at hc2
            exact hgt hc2
        · simp only [if_neg hcount]
          simp [olt, oleq]

/-- Witness for `resolveSubject_characterization`: an interest event at day
`5` with no competing event and horizon `14` resolves to `(5, 1)`. -/
theorem resolveSubject_characterization_witness :
    resolveSubject 14 1 5 0 none = (min (5:ℚ) 14, 1) :=
  (resolveSubject_characterization 14 1 5 0 none).1
    ⟨rfl, by intro v hv; cases hv⟩

/-! ## `weighted_competing_risk_cif_rr_at` (effects.py lines 295–389)

The stratified bootstrap draws index arrays with
`rng = np.random.default_rng(int(seed)); rng.integers(0, size, size=size)`.
numpy's generator contract is that the value stream is a pure function of
the seed and the position in the stream; it is modelled by an abstract
family `gen : ℕ → ℕ → ℕ` (seed ↦ position ↦ raw value, reduced mod the
arm size).  Each replicate consumes `n1` values for the treated arm and
then `n0` for the control arm.  The process-global numpy RNG state — which
the source never touches — is modelled as an explicit `ambient` parameter
so that independence from it is statable. -/

/-- One input row (post-`dropna` on treatment, interest event/time and
weight; competing columns may be missing). -/
structure CRRow where
  treat : ℚ
  ei : ℚ
  ti : ℚ
  ec : Option ℚ
  tc : Option ℚ
  w : ℚ
  deriving DecidableEq, Repr

/-- Resolve one subject to the `(time, status, weight)` triple fed to the
Aalen–Johansen estimator. -/
def crResolve (horizon : ℚ) (r : CRRow) : ℚ × ℤ × ℚ :=
  ((resolveSubject horizon (truncZ r.ei) r.ti (truncZ (r.ec.getD 0)) r.tc).1,
   (resolveSubject horizon (truncZ r.ei) r.ti (truncZ (r.ec.getD 0)) r.tc).2,
   r.w)

/-- The bootstrap index draws: replicate `r` draws `n1` treated indices and
then `n0` control indices from the seeded stream. -/
def crDraws (gen : ℕ → ℕ → ℕ) (seed nb n1 n0 : ℕ) :
    List (List ℕ × List ℕ) :=
  (List.range nb).map (fun r =>
    ((List.range n1).map (fun i => gen seed (r * (n1 + n0) + i) % n1),
     (List.range n0).map (fun i => gen seed (r * (n1 + n0) + n1 + i) % n0)))

/-- `np.quantile` with the default linear interpolation. -/
def npQuantile (xs : List ℚ) (q : ℚ) : ℚ :=
  let s := List.insertionSort (· ≤ ·) xs
  let n := s.length
  let pos := q * ((n : ℚ) - 1)
  let i : ℕ := Int.toNat ⌊pos⌋
  let lo := s.getD i 0
  let hi := s.getD (i + 1) lo
  lo + (pos - (i : ℚ)) * (hi - lo)

/-- Result record of the competing-risk summary (`RiskEstimate` with the
CIF point estimates; `none` is the NaN sentinel, `RVal` carries the
possibly-infinite ratio). -/
structure CRResult where
  risk_treated : Option ℚ
  risk_control : Option ℚ
  rd : Option ℚ
  rr : RVal
  rd_ci95 : Option (ℚ × ℚ)
  rr_ci95 : Option (ℚ × ℚ)
  deriving DecidableEq, Repr

def weighted_competing_risk_cif_rr_at (gen : ℕ → ℕ → ℕ)
    (ambient : ℕ → ℕ) (rows : List CRRow) (horizon : ℚ)
    (n_bootstrap seed : ℕ) : CRResult :=
  let arm1 := rows.filter (fun r => truncZ r.treat = 1)
  let arm0 := rows.filter (fun r => truncZ r.treat = 0)
  let cif1 := weighted_aj_cif_at (arm1.map (crResolve horizon)) horizon
  let cif0 := weighted_aj_cif_at (arm0.map (crResolve horizon)) horizon
  let rd := match cif1, cif0 with
    | some a, some b => some (a - b)
    | _, _ => none
  let rr : RVal := match cif0 with
    | some b =>
        if 0 < b then
          (match cif1 with
            | some a => RVal.fin (a / b)
            | none => RVal.nan)
        else RVal.pinf
    | none => RVal.pinf
  let n1 := arm1.length
  let n0 := arm0.length
  let cis :=
    if 0 < n_bootstrap ∧ 0 < n1 ∧ 0 < n0 then
      let ds := crDraws gen seed n_bootstrap n1 n0
      let reps := ds.map (fun d =>
        (weighted_aj_cif_at
          ((d.1.map (fun i => arm1.getD i ⟨0, 0, 0, none, none, 0⟩)).map
            (crResolve horizon)) horizon,
         weighted_aj_cif_at
          ((d.2.map (fun i => arm0.getD i ⟨0, 0, 0, none, none, 0⟩)).map
            (crResolve horizon)) horizon))
      let kept := reps.filterMap (fun p =>
        match p.1, p.2 with
        | some a, some b => some (a, b)
        | _, _ => none)
      let rd_s := kept.map (fun p => p.1 - p.2)
      let rr_s : List (Option ℚ) := kept.map (fun p =>
        if 0 < p.2 then some (p.1 / p.2) else none)
      let rd_ci := if rd_s = [] then none
        else some (npQuantile rd_s (1/40), npQuantile rd_s (39/40))
      let rr_s_f := rr_s.filterMap (fun x =>
        match x with
        | some q => if 0 < q then some q else none
        | none => none)
      let rr_ci := if rr_s_f = [] then none
        else some (npQuantile rr_s_f (1/40), npQuantile rr_s_f (39/40))
      (rd_ci, rr_ci)
    else (none, none)
  { risk_treated := cif1
    risk_control := cif0
    rd := rd
    rr := rr
    rd_ci95 := cis.1
    rr_ci95 := cis.2 }

/-- C8: the stratified bootstrap is deterministic given the seed.  Two
invocations on the same data with the same seed and resample count produce
identical bootstrap index draws and an identical result — including the
percentile 95% CI bounds for RD and RR — regardless of the process-global
RNG state (`ambient`), which the function never consults. -/
theorem weighted_competing_risk_cif_rr_at_deterministic
    (gen : ℕ → ℕ → ℕ) (ambient1 ambient2 : ℕ → ℕ) (rows : List CRRow)
    (horizon : ℚ) (nb : ℕ) (seed1 seed2 : ℕ) (hseed : seed1 = seed2) :
    crDraws gen seed1 nb (rows.filter (fun r => truncZ r.treat = 1)).length
        (rows.filter (fun r => truncZ r.treat = 0)).length
      = crDraws gen seed2 nb
        (rows.filter (fun r => truncZ r.treat = 1)).length
        (rows.filter (fun r => truncZ r.treat = 0)).length
    ∧ weighted_competing_risk_cif_rr_at gen ambient1 rows horizon nb seed1
      = weighted_competing_risk_cif_rr_at gen ambient2 rows horizon nb seed2 := by
  subst hseed
  exact ⟨rfl, rfl⟩

/-- Witness for `weighted_competing_risk_cif_rr_at_deterministic` at a
concrete input and two different ambient states. -/
theorem weighted_competing_risk_cif_rr_at_deterministic_witness :
    weighted_competing_risk_cif_rr_at (fun s p => s + p) (fun n => n)
        [⟨1, 1, 3, none, none, 1⟩, ⟨0, 0, 5, none, none, 1⟩] 14 3 42
      = weighted_competing_risk_cif_rr_at (fun s p => s + p) (fun n => n + 7)
        [⟨1, 1, 3, none, none, 1⟩, ⟨0, 0, 5, none, none, 1⟩] 14 3 42 :=
  (weighted_competing_risk_cif_rr_at_deterministic (fun s p => s + p)
    (fun n => n) (fun n => n + 7)
    [⟨1, 1, 3, none, none, 1⟩, ⟨0, 0, 5, none, none, 1⟩] 14 3 42 42 rfl).2
